import Mathlib

/-!
# Query Security & Mutation Translation Engine — verification development

A shallow embedding of the query-parameter validation, nested-write
translation, raw-query whitelist guard and transactional-retry runner of the
express-prisma-starter repository (`BaseController` in
`src/core/controllers/BaseController.ts` and `BaseModel` in
`src/core/base/BaseModel.ts`), together with theorems settling the stated
properties of those components.

Modeling conventions:
- JavaScript values flowing through the controller are modeled by the
  inductive type `JVal` (null/undefined collapse to `JVal.null`: the code
  distinguishes them only through truthiness, where both are falsy).
  JavaScript objects are ordered association lists, as `Object.keys` /
  `Object.entries` enumerate string-keyed own properties in insertion order.
- JavaScript numbers reached by the pagination arithmetic are modeled by
  `JsNum`, an integer with an explicit NaN point, because `parseInt` can
  produce NaN and `Math.max`/`Math.min`/`>` propagate or absorb it.
- Host-runtime builtins at the model boundary (`JSON.parse`, `new Date`)
  are given executable models: a JSON reader over the grammar fragment the
  repository feeds it, and an ISO-8601 date recognizer (the specification
  describes the date branch as "ISO-8601-parseable date"; `new Date` beyond
  ISO is implementation-defined).
- Strings are processed as `List Char`; regular-expression scans in the
  whitelist guard are implemented as the left-to-right, non-overlapping
  scanners that the corresponding `matchAll`/`match` calls perform.
-/

/-- A few characters are built by code point so the source text stays free of
quote-like characters: apostrophe. -/
def aposC : Char := Char.ofNat 39

/-- Double quote. -/
def dquoteC : Char := Char.ofNat 34

/-- Backtick. -/
def btickC : Char := Char.ofNat 96

/-- Backslash. -/
def bslashC : Char := Char.ofNat 92

/-- Opening curly brace. -/
def lbraceC : Char := Char.ofNat 123

/-- Closing curly brace. -/
def rbraceC : Char := Char.ofNat 125

/-- Apostrophe as a one-character string, used when rebuilding the error
messages of the controller, which quote the offending field name. -/
def sQuote : String := String.singleton aposC

/-- JavaScript values as seen by the controller: primitives, arrays, objects
(ordered association lists) and `Date` instances (produced by the value
parser; a `Date` is an object with no enumerable own properties).
Non-integral numbers are kept in decimal form `decimal m s` = m·10^(−s),
which is enough structure for the code under study, none of which computes
with them. -/
inductive JVal where
  | null : JVal
  | bool : Bool → JVal
  | num : Int → JVal
  | decimal : Int → Nat → JVal
  | str : String → JVal
  | date : String → JVal
  | arr : List JVal → JVal
  | obj : List (String × JVal) → JVal
deriving Repr

mutual

/-- Structural equality test for `JVal`. -/
def JVal.beq : JVal → JVal → Bool
  | .null, .null => true
  | .bool a, .bool b => a == b
  | .num a, .num b => a == b
  | .decimal a b, .decimal c d => a == c && b == d
  | .str a, .str b => a == b
  | .date a, .date b => a == b
  | .arr a, .arr b => JVal.beqList a b
  | .obj a, .obj b => JVal.beqFields a b
  | _, _ => false

/-- Structural equality on lists of values. -/
def JVal.beqList : List JVal → List JVal → Bool
  | [], [] => true
  | x :: xs, y :: ys => JVal.beq x y && JVal.beqList xs ys
  | _, _ => false

/-- Structural equality on association lists. -/
def JVal.beqFields : List (String × JVal) → List (String × JVal) → Bool
  | [], [] => true
  | (k, v) :: xs, (l, w) :: ys => k == l && JVal.beq v w && JVal.beqFields xs ys
  | _, _ => false

end

mutual

theorem JVal.beq_iff : ∀ a b : JVal, JVal.beq a b = true ↔ a = b
  | .null, b => by cases b <;> simp [JVal.beq]
  | .bool _, b => by cases b <;> simp [JVal.beq]
  | .num _, b => by cases b <;> simp [JVal.beq]
  | .decimal _ _, b => by cases b <;> simp [JVal.beq, and_assoc]
  | .str _, b => by cases b <;> simp [JVal.beq]
  | .date _, b => by cases b <;> simp [JVal.beq]
  | .arr x, b => by
      cases b <;> simp [JVal.beq]
      exact JVal.beqList_iff x _
  | .obj x, b => by
      cases b <;> simp [JVal.beq]
      exact JVal.beqFields_iff x _

theorem JVal.beqList_iff : ∀ a b : List JVal, JVal.beqList a b = true ↔ a = b
  | [], b => by cases b <;> simp [JVal.beqList]
  | x :: xs, b => by
      cases b with
      | nil => simp [JVal.beqList]
      | cons y ys =>
        simp [JVal.beqList, JVal.beq_iff x y, JVal.beqList_iff xs ys]

theorem JVal.beqFields_iff :
    ∀ a b : List (String × JVal), JVal.beqFields a b = true ↔ a = b
  | [], b => by cases b <;> simp [JVal.beqFields]
  | (k, v) :: xs, b => by
      cases b with
      | nil => simp [JVal.beqFields]
      | cons y ys =>
        obtain ⟨l, w⟩ := y
        simp [JVal.beqFields, JVal.beq_iff v w, JVal.beqFields_iff xs ys,
          and_assoc]

end

instance : DecidableEq JVal := fun a b =>
  decidable_of_iff (JVal.beq a b = true) (JVal.beq_iff a b)

/-- JavaScript truthiness: `null`/`undefined`, `false`, `0`, `NaN` and the
empty string are falsy; every object (arrays and dates included) is truthy. -/
def truthy : JVal → Bool
  | .null => false
  | .bool b => b
  | .num n => n != 0
  | .decimal m _ => m != 0
  | .str s => s != ""
  | .date _ => true
  | .arr _ => true
  | .obj _ => true

/-- `Object.entries` (also the enumeration behind `Object.keys` and object
spread) on an arbitrary value: objects enumerate their own properties in
order, arrays their indices, strings their character positions; primitives
and dates have no enumerable own properties.  `Object.keys(null)` never
occurs in the modeled code paths, which all guard with a truthiness test. -/
def jsEntries : JVal → List (String × JVal)
  | .obj fs => fs
  | .arr xs => (xs.enum.map fun p => (toString p.1, p.2))
  | .str s => (s.toList.enum.map fun p => (toString p.1, JVal.str (String.singleton p.2)))
  | _ => []

/-- Property read `v[k]`: `none` models `undefined`. Only plain objects carry
modeled properties; index reads on arrays/strings do not occur in the code
under study. -/
def getProp : JVal → String → Option JVal
  | .obj fs, k => fs.lookup k
  | _, _ => none

/-- Property read defaulting to `undefined`-as-`null` (the two are
indistinguishable to the truthiness tests that guard every use). -/
def getPropD (v : JVal) (k : String) : JVal := (getProp v k).getD .null

/-- Truthiness of a property read (`if (value.create)` and similar). -/
def truthyProp (v : JVal) (k : String) : Bool := truthy (getPropD v k)

/-- JavaScript property assignment `o[k] = v` on an association list: an
existing key keeps its position and gets the new value; a new key is
appended. -/
def jsSetProp : List (String × JVal) → String → JVal → List (String × JVal)
  | [], k, v => [(k, v)]
  | (k0, v0) :: rest, k, v =>
      if k0 = k then (k0, v) :: rest else (k0, v0) :: jsSetProp rest k v

/-- The security configuration of `BaseController` (interface
`QuerySecurityConfig` in BaseController.ts). -/
structure QuerySecurityConfig where
  allowedFilters : List String
  allowedSortFields : List String
  allowedIncludeRelations : List String
  allowedSelectFields : List String
  maxIncludeDepth : Nat
  maxLimit : Int
  hasSoftDelete : Bool
  maximumNestedDepth : Nat
deriving Repr, DecidableEq

/-- `DEFAULT_SECURITY_CONFIG`: deny-by-default allow-lists, depth 1,
page-size cap 50, soft delete off, nested-write depth 1. -/
def DEFAULT_SECURITY_CONFIG : QuerySecurityConfig :=
  { allowedFilters := []
    allowedSortFields := []
    allowedIncludeRelations := []
    allowedSelectFields := []
    maxIncludeDepth := 1
    maxLimit := 50
    hasSoftDelete := false
    maximumNestedDepth := 1 }

/-- Error message of `_validateFilterFields`. -/
def filterMsg (k : String) : String :=
  "Filtering by " ++ sQuote ++ k ++ sQuote ++ " is not allowed"

/-- Error message of `_validateSortFields`. -/
def sortMsg (k : String) : String :=
  "Sorting by " ++ sQuote ++ k ++ sQuote ++ " is not allowed"

/-- Error message of `_validateIncludeRelations` for a disallowed relation. -/
def includeMsg (k : String) : String :=
  "Including " ++ sQuote ++ k ++ sQuote ++ " relation is not allowed"

/-- Error message of `_validateIncludeRelations` for excessive depth. -/
def depthMsg : String := "Include depth exceeds maximum allowed"

/-- Error message of `_validateSelectFields`. -/
def selectMsg (k : String) : String :=
  "Selecting field " ++ sQuote ++ k ++ sQuote ++ " is not allowed"

/-- Error message of the limit check in `_validateQueryParams`. -/
def limitMsg (maxLimit : Int) : String :=
  "Limit exceeds maximum allowed value of " ++ toString maxLimit

mutual

/-- `_validateFilterFields` (BaseController.ts, part_004 lines 138–158).
`Object.keys(where)` is walked in order; the logical keys AND/OR/NOT recurse
(into each array element, or into the object itself), the key `deletedAt` is
exempt, and any other key outside `allowedFilters` throws
"Filtering by 'k' is not allowed".  The `str`/`arr` cases inline
`Object.keys` on non-record arguments reached through logical-group
recursion: their keys are decimal indices, which are never the literal
strings AND/OR/NOT, so only the membership check applies to them; a falsy
argument (`!where`) returns at once. -/
def validateFilterFields (allowed : List String) : JVal → Except String Unit
  | .obj fs => validateFilterEntries allowed fs
  | .str s =>
      validateFilterIndexKeys allowed
        ((List.range s.length).map fun i => toString i)
  | .arr xs =>
      validateFilterIndexKeys allowed
        ((List.range xs.length).map fun i => toString i)
  | _ => .ok ()

/-- The body of the `forEach` of `_validateFilterFields` for one key: the
logical keys AND/OR/NOT recurse (per array element, or into an object —
`typeof null` is also "object" but the recursive call returns at once on the
falsy argument, and non-object values fall through both branches); any other
key must be `deletedAt` or allowed. -/
def validateFilterHead (allowed : List String) (k : String) (v : JVal) :
    Except String Unit :=
  if k = "AND" ∨ k = "OR" ∨ k = "NOT" then
    match v with
    | .arr xs => validateFilterList allowed xs
    | .obj gs => validateFilterEntries allowed gs
    | _ => .ok ()
  else if k ≠ "deletedAt" ∧ ¬ allowed.contains k then
    .error (filterMsg k)
  else
    .ok ()

/-- The `Object.keys(where).forEach` loop of `_validateFilterFields`;
sequential, stopping at the first thrown error. -/
def validateFilterEntries (allowed : List String) :
    List (String × JVal) → Except String Unit
  | [] => .ok ()
  | (k, v) :: rest =>
      validateFilterHead allowed k v >>= fun _ =>
      validateFilterEntries allowed rest

/-- Recursion of `_validateFilterFields` over the elements of a logical
group array. -/
def validateFilterList (allowed : List String) : List JVal → Except String Unit
  | [] => .ok ()
  | v :: rest =>
      validateFilterFields allowed v >>= fun _ =>
      validateFilterList allowed rest

/-- Membership check applied to the index keys contributed by a string or
array argument (no logical keys, no recursion — see
`validateFilterFields`). -/
def validateFilterIndexKeys (allowed : List String) :
    List String → Except String Unit
  | [] => .ok ()
  | k :: rest =>
      (if k ≠ "deletedAt" ∧ ¬ allowed.contains k then .error (filterMsg k)
      else .ok ()) >>= fun _ =>
      validateFilterIndexKeys allowed rest

end

mutual

/-- The acceptance condition of `_validateFilterFields`, written as the
specification reads: every reachable non-logical key is either the exempt
`deletedAt` or a member of the filter allow-list. -/
def FilterKeysOk (allowed : List String) : JVal → Prop
  | .obj fs => FilterEntriesOk allowed fs
  | .str s => ∀ i ∈ List.range s.length, toString i = "deletedAt" ∨ allowed.contains (toString i) = true
  | .arr xs => ∀ i ∈ List.range xs.length, toString i = "deletedAt" ∨ allowed.contains (toString i) = true
  | _ => True

/-- Acceptance condition for one key. -/
def FilterHeadOk (allowed : List String) (k : String) (v : JVal) : Prop :=
  if k = "AND" ∨ k = "OR" ∨ k = "NOT" then
    match v with
    | .arr xs => FilterListOk allowed xs
    | .obj gs => FilterEntriesOk allowed gs
    | _ => True
  else
    k = "deletedAt" ∨ allowed.contains k = true

/-- Per-entry acceptance condition. -/
def FilterEntriesOk (allowed : List String) : List (String × JVal) → Prop
  | [] => True
  | (k, v) :: rest => FilterHeadOk allowed k v ∧ FilterEntriesOk allowed rest

/-- Acceptance condition over the elements of a logical group. -/
def FilterListOk (allowed : List String) : List JVal → Prop
  | [] => True
  | v :: rest => FilterKeysOk allowed v ∧ FilterListOk allowed rest

end

/-- The keys of `Object.keys(v)`. -/
def jsKeysOf (v : JVal) : List String := (jsEntries v).map Prod.fst

/-- `typeof v === "object"` (true for `null`, arrays, dates and plain
objects). -/
def isObjectType : JVal → Bool
  | .obj _ => true
  | .arr _ => true
  | .date _ => true
  | .null => true
  | _ => false

/-- Shared shape of `_validateSortFields` / `_validateSelectFields`: walk the
keys in order, throwing the operation's message at the first key outside the
allow-list. -/
def firstDisallowed (allowed : List String) (msg : String → String) :
    List String → Except String Unit
  | [] => .ok ()
  | k :: rest =>
      if ¬ allowed.contains k then .error (msg k)
      else firstDisallowed allowed msg rest

/-- `_validateSortFields` (part_004 lines 160–166). -/
def validateSortFields (allowed : List String) (orderBy : JVal) :
    Except String Unit :=
  firstDisallowed allowed sortMsg (jsKeysOf orderBy)

/-- `_validateSelectFields` (part_004 lines 195–201). -/
def validateSelectFields (allowed : List String) (select : JVal) :
    Except String Unit :=
  firstDisallowed allowed selectMsg (jsKeysOf select)

/-- The guard under which `_validateIncludeRelations` recurses into a value:
`include[key] && typeof include[key] === "object" && include[key].include`. -/
def traversable (v : JVal) : Bool :=
  truthy v && isObjectType v && truthyProp v "include"

/-- The nested inclusion tree of a traversable value. -/
def subInclude (v : JVal) : JVal := getPropD v "include"

mutual

/-- `_validateIncludeRelations` (part_004 lines 168–193), with the depth
bookkeeping carried as the remaining budget `rem = maxIncludeDepth + 1 − d`
(the call depth `d` starts at 1 and appears in the source only through the
comparison `d > maxIncludeDepth`, i.e. `rem = 0`, where the depth error is
thrown before anything at that level is inspected; a falsy tree within the
budget returns silently). -/
def validateIncludeRem (allowed : List String) : Nat → JVal → Except String Unit
  | 0, _ => .error depthMsg
  | r + 1, inc =>
      if truthy inc then validateIncludeEntries allowed r (jsEntries inc)
      else .ok ()
termination_by rem _ => (rem, 0)

/-- The `Object.keys(include).forEach` loop: a key outside the allow-list
throws; a traversable value recurses with one less level of budget. -/
def validateIncludeEntries (allowed : List String) (r : Nat) :
    List (String × JVal) → Except String Unit
  | [] => .ok ()
  | (k, v) :: rest =>
      (if ¬ allowed.contains k then .error (includeMsg k)
      else if traversable v then validateIncludeRem allowed r (subInclude v)
      else .ok ()) >>= fun _ =>
      validateIncludeEntries allowed r rest
termination_by es => (r, es.length + 1)

end

/-- Entry point of the include validation as `_validateQueryParams` and
`getOne` call it: depth 1 against the configured bound, i.e. budget
`maxIncludeDepth`. -/
def validateIncludeRelations (allowed : List String) (maxDepth : Nat)
    (inc : JVal) : Except String Unit :=
  validateIncludeRem allowed maxDepth inc

/-- Whether the traversal of an inclusion tree reaches a level beyond the
budget — the condition under which the source throws its depth error (the
relation nesting of the tree, counted through `.include` sub-keys, is deeper
than the remaining budget). -/
def includeExceeds : Nat → JVal → Bool
  | 0, _ => true
  | r + 1, inc =>
      truthy inc &&
        (jsEntries inc).any fun p => traversable p.2 && includeExceeds r (subInclude p.2)

/-- All keys of the inclusion tree at levels within the budget are in the
allow-list (keys at the level beyond the budget, which the source never
inspects, are unconstrained). -/
def IncludeAllowedUpTo (allowed : List String) : Nat → JVal → Prop
  | 0, _ => True
  | r + 1, inc =>
      truthy inc = true →
        ∀ p ∈ jsEntries inc,
          allowed.contains p.1 = true ∧
            (traversable p.2 = true → IncludeAllowedUpTo allowed r (subInclude p.2))

/-- Acceptance condition of the include validation: the tree stays within the
budget and every inspected key is allowed. -/
def IncludeOkRem (allowed : List String) : Nat → JVal → Prop
  | 0, _ => False
  | r + 1, inc =>
      truthy inc = true →
        ∀ p ∈ jsEntries inc,
          allowed.contains p.1 = true ∧
            (traversable p.2 = true → IncludeOkRem allowed r (subInclude p.2))

/-- JavaScript numbers as they reach the pagination arithmetic: an integer or
NaN (`parseInt` of a non-numeric string). -/
inductive JsNum where
  | nan : JsNum
  | int : Int → JsNum
deriving Repr, DecidableEq

/-- `Math.max(1, a)` — NaN propagates. -/
def jsMax1 : JsNum → JsNum
  | .nan => .nan
  | .int n => .int (max 1 n)

/-- `Math.min(a, b)` against an integer bound — NaN propagates. -/
def jsMinI : JsNum → Int → JsNum
  | .nan, _ => .nan
  | .int n, b => .int (min n b)

/-- `a > b` against an integer bound — false when NaN. -/
def jsGtI : JsNum → Int → Bool
  | .nan, _ => false
  | .int n, b => n > b

/-- `a - b` with an integer — NaN propagates. -/
def jsSubI : JsNum → Int → JsNum
  | .nan, _ => .nan
  | .int n, b => .int (n - b)

/-- Multiplication — NaN propagates. -/
def jsMul : JsNum → JsNum → JsNum
  | .int a, .int b => .int (a * b)
  | _, _ => .nan

/-- `a >= b` against an integer bound — false when NaN. -/
def jsGeI : JsNum → Int → Bool
  | .nan, _ => false
  | .int n, b => n ≥ b

/-- The query-plan object assembled by `_parseQueryParams` and checked by
`_validateQueryParams`: skip/take, and the optional orderBy / select /
include / where members (absent members are the falsy `JVal.null`, which is
how the `if (params.x)` guards of `_validateQueryParams` see them). -/
structure QueryArgs where
  skip : JsNum
  take : JsNum
  orderBy : JVal
  select : JVal
  includeV : JVal
  whereV : JVal
deriving Repr, DecidableEq

/-- `_validateQueryParams` (part_004 lines 203–226): filter, sort, include
and select validation in order, each only when the member is truthy, then the
hard limit check `params.take > maxLimit`. -/
def validateQueryParams (cfg : QuerySecurityConfig) (p : QueryArgs) :
    Except String Unit :=
  (if truthy p.whereV then validateFilterFields cfg.allowedFilters p.whereV
  else .ok ()) >>= fun _ =>
  (if truthy p.orderBy then validateSortFields cfg.allowedSortFields p.orderBy
  else .ok ()) >>= fun _ =>
  (if truthy p.includeV then
    validateIncludeRelations cfg.allowedIncludeRelations cfg.maxIncludeDepth
      p.includeV
  else .ok ()) >>= fun _ =>
  (if truthy p.select then validateSelectFields cfg.allowedSelectFields p.select
  else .ok ()) >>= fun _ =>
  (if jsGtI p.take cfg.maxLimit then .error (limitMsg cfg.maxLimit)
  else .ok ())

/-- Whitespace as JavaScript's `trim`, `\s` and `parseInt` skip it (ASCII
subset; the engine's set also contains exotic Unicode spaces, which never
reach these code paths). -/
def jsIsWs (c : Char) : Bool :=
  c = ' ' ∨ c = '\t' ∨ c = '\n' ∨ c = '\r' ∨ c = Char.ofNat 11 ∨ c = Char.ofNat 12

/-- `String.prototype.trim`. -/
def jsTrim (s : String) : String :=
  String.mk ((s.toList.dropWhile jsIsWs).reverse.dropWhile jsIsWs).reverse

/-- ASCII lower-casing (`toLowerCase` on the characters these code paths
compare). -/
def asciiLower (c : Char) : Char :=
  if 'A' ≤ c ∧ c ≤ 'Z' then Char.ofNat (c.toNat + 32) else c

/-- ASCII upper-casing (`toUpperCase`). -/
def asciiUpper (c : Char) : Char :=
  if 'a' ≤ c ∧ c ≤ 'z' then Char.ofNat (c.toNat - 32) else c

/-- `toLowerCase` of a string. -/
def strLower (s : String) : String := String.mk (s.toList.map asciiLower)

/-- `toUpperCase` of a string. -/
def strUpper (s : String) : String := String.mk (s.toList.map asciiUpper)

/-- Digit run to a natural number. -/
def digitsToNat (ds : List Char) : Nat :=
  ds.foldl (fun a c => a * 10 + (c.toNat - 48)) 0

/-- `parseInt(s, 10)`: skip leading whitespace, read an optional sign and a
leading digit run, ignore the rest; NaN when no digit was read. -/
def parseIntJs (s : String) : JsNum :=
  let cs := s.toList.dropWhile jsIsWs
  let signed : Bool × List Char :=
    match cs with
    | c :: rest =>
        if c = '-' then (true, rest)
        else if c = '+' then (false, rest)
        else (false, cs)
    | [] => (false, [])
  let digits := signed.2.takeWhile Char.isDigit
  if digits.isEmpty then .nan
  else
    let n : Int := digitsToNat digits
    .int (if signed.1 then -n else n)

/-- The regular expression `^-?[0-9]+$` of the value parser. -/
def intLiteralOk (s : String) : Bool :=
  let cs := match s.toList with
    | c :: rest => if c = '-' then rest else s.toList
    | [] => []
  ¬ cs.isEmpty && cs.all Char.isDigit

/-- The regular expression `^-?[0-9]+\.[0-9]+$` of the value parser. -/
def floatLiteralOk (s : String) : Bool :=
  let cs := match s.toList with
    | c :: rest => if c = '-' then rest else s.toList
    | [] => []
  let intPart := cs.takeWhile Char.isDigit
  match cs.drop intPart.length with
  | '.' :: frac => ¬ intPart.isEmpty && ¬ frac.isEmpty && frac.all Char.isDigit
  | _ => false

/-- The decimal value of a string matching `floatLiteralOk`, kept as
mantissa·10^(−scale). -/
def floatLiteralVal (s : String) : JVal :=
  let (neg, cs) : Bool × List Char :=
    match s.toList with
    | c :: rest => if c = '-' then (true, rest) else (false, s.toList)
    | [] => (false, [])
  let intPart := cs.takeWhile Char.isDigit
  let frac := (cs.drop (intPart.length + 1)).takeWhile Char.isDigit
  let m : Int := digitsToNat (intPart ++ frac)
  .decimal (if neg then -m else m) frac.length

/-- Boundary model of `new Date(value)` validity: the ISO-8601 shapes
`YYYY-MM`, `YYYY-MM-DD` and `YYYY-MM-DDTHH:MM(:SS(.mmm)?)?(Z)?` with
plausible month/day/time ranges (the specification describes this branch as
"ISO-8601-parseable date"; what `new Date` accepts beyond ISO is
implementation-defined and unused by the theorems). -/
def isoTimeOk (cs : List Char) : Bool :=
  match cs with
  | h1 :: h2 :: ':' :: n1 :: n2 :: rest =>
      [h1, h2, n1, n2].all Char.isDigit &&
      digitsToNat [h1, h2] < 24 && digitsToNat [n1, n2] < 60 &&
      (match rest with
       | [] => true
       | ['Z'] => true
       | ':' :: s1 :: s2 :: rest2 =>
           [s1, s2].all Char.isDigit && digitsToNat [s1, s2] < 60 &&
           (match rest2 with
            | [] => true
            | ['Z'] => true
            | '.' :: ms =>
                let digits := ms.takeWhile Char.isDigit
                ¬ digits.isEmpty &&
                  (ms.drop digits.length = [] ∨ ms.drop digits.length = ['Z'])
            | _ => false)
       | _ => false)
  | _ => false

/-- ISO date recognition (see `isoTimeOk`). -/
def isoDateOk (s : String) : Bool :=
  match s.toList with
  | y1 :: y2 :: y3 :: y4 :: '-' :: m1 :: m2 :: rest =>
      [y1, y2, y3, y4, m1, m2].all Char.isDigit &&
      1 ≤ digitsToNat [m1, m2] && digitsToNat [m1, m2] ≤ 12 &&
      (match rest with
       | [] => true
       | '-' :: d1 :: d2 :: rest2 =>
           [d1, d2].all Char.isDigit &&
           1 ≤ digitsToNat [d1, d2] && digitsToNat [d1, d2] ≤ 31 &&
           (match rest2 with
            | [] => true
            | 'T' :: time => isoTimeOk time
            | _ => false)
       | _ => false)
  | _ => false

/-- JSON whitespace. -/
def jsonWs (cs : List Char) : List Char :=
  cs.dropWhile fun c => c = ' ' ∨ c = '\t' ∨ c = '\n' ∨ c = '\r'

/-- The character run of a JSON string literal after its opening quote:
returns the decoded characters and the remainder after the closing quote. -/
def jsonStrAux : List Char → Option (List Char × List Char)
  | [] => none
  | c :: rest =>
      if c = dquoteC then some ([], rest)
      else if c = bslashC then
        match rest with
        | [] => none
        | e :: rest2 =>
            if e = 'u' then
              match rest2 with
              | h1 :: h2 :: h3 :: h4 :: rest3 =>
                  if [h1, h2, h3, h4].all (fun h => h.isDigit ∨ ('a' ≤ h ∧ h ≤ 'f') ∨ ('A' ≤ h ∧ h ≤ 'F')) then
                    match jsonStrAux rest3 with
                    | some (s, r) =>
                        let hv : Char → Nat := fun h =>
                          if h.isDigit then h.toNat - 48
                          else if 'a' ≤ h ∧ h ≤ 'f' then h.toNat - 87
                          else h.toNat - 55
                        some (Char.ofNat (((hv h1 * 16 + hv h2) * 16 + hv h3) * 16 + hv h4) :: s, r)
                    | none => none
                  else none
              | _ => none
            else
              let dec : Option Char :=
                if e = dquoteC then some dquoteC
                else if e = bslashC then some bslashC
                else if e = '/' then some '/'
                else if e = 'n' then some '\n'
                else if e = 't' then some '\t'
                else if e = 'r' then some '\r'
                else if e = 'b' then some (Char.ofNat 8)
                else if e = 'f' then some (Char.ofNat 12)
                else none
              match dec with
              | some ch =>
                  match jsonStrAux rest2 with
                  | some (s, r) => some (ch :: s, r)
                  | none => none
              | none => none
      else
        match jsonStrAux rest with
        | some (s, r) => some (c :: s, r)
        | none => none

/-- A JSON number literal: sign, digits, optional fraction and exponent,
normalized to `JVal.num` when integral and `JVal.decimal` otherwise. -/
def jsonNumber (cs : List Char) : Option (JVal × List Char) :=
  let (neg, cs1) : Bool × List Char :=
    match cs with
    | '-' :: rest => (true, rest)
    | _ => (false, cs)
  let intPart := cs1.takeWhile Char.isDigit
  if intPart.isEmpty then none
  else
    let cs2 := cs1.drop intPart.length
    let (frac, cs3) : List Char × List Char :=
      match cs2 with
      | '.' :: rest =>
          let f := rest.takeWhile Char.isDigit
          (f, rest.drop f.length)
      | _ => ([], cs2)
    if (match cs2 with | '.' :: _ => frac.isEmpty | _ => false) then none
    else
      let (expOk, expVal, cs4) : Bool × Int × List Char :=
        match cs3 with
        | e :: rest =>
            if e = 'e' ∨ e = 'E' then
              let (eneg, rest2) : Bool × List Char :=
                match rest with
                | '-' :: r => (true, r)
                | '+' :: r => (false, r)
                | _ => (false, rest)
              let ds := rest2.takeWhile Char.isDigit
              if ds.isEmpty then (false, 0, cs3)
              else
                (true, (if eneg then -(digitsToNat ds : Int) else (digitsToNat ds : Int)),
                  rest2.drop ds.length)
            else (true, 0, cs3)
        | [] => (true, 0, cs3)
      if ¬ expOk then none
      else
        let m : Int := digitsToNat (intPart ++ frac)
        let m := if neg then -m else m
        let scale : Int := (frac.length : Int) - expVal
        let v : JVal :=
          if scale ≤ 0 then .num (m * (10 : Int) ^ (-scale).toNat)
          else .decimal m scale.toNat
        some (v, cs4)

mutual

/-- Boundary model of `JSON.parse`: a recursive-descent reader of the JSON
grammar (objects keep first-insertion key order with later duplicates
overwriting, as the engine does).  Structurally fueled; `jsonParse` supplies
ample fuel, and no theorem depends on the reader beyond its executability on
concrete inputs. -/
def jsonVal (fuel : Nat) (cs : List Char) : Option (JVal × List Char) :=
  match fuel with
  | 0 => none
  | f + 1 =>
      match jsonWs cs with
      | 'n' :: 'u' :: 'l' :: 'l' :: rest => some (.null, rest)
      | 't' :: 'r' :: 'u' :: 'e' :: rest => some (.bool true, rest)
      | 'f' :: 'a' :: 'l' :: 's' :: 'e' :: rest => some (.bool false, rest)
      | c :: rest =>
          if c = dquoteC then
            match jsonStrAux rest with
            | some (s, r) => some (.str (String.mk s), r)
            | none => none
          else if c = lbraceC then
            match jsonWs rest with
            | d :: rest2 =>
                if d = rbraceC then some (.obj [], rest2)
                else jsonMembers f (d :: rest2) []
            | [] => none
          else if c = '[' then
            match jsonWs rest with
            | ']' :: rest2 => some (.arr [], rest2)
            | rest2 => jsonElems f rest2 []
          else jsonNumber (c :: rest)
      | [] => none

/-- Members of a JSON object (after `{` and leading whitespace, positioned at
a key). -/
def jsonMembers (fuel : Nat) (cs : List Char) (acc : List (String × JVal)) :
    Option (JVal × List Char) :=
  match fuel with
  | 0 => none
  | f + 1 =>
      match jsonWs cs with
      | c :: rest =>
          if c = dquoteC then
            match jsonStrAux rest with
            | some (k, r) =>
                match jsonWs r with
                | ':' :: r2 =>
                    match jsonVal f r2 with
                    | some (v, r3) =>
                        let acc2 := jsSetProp acc (String.mk k) v
                        match jsonWs r3 with
                        | ',' :: r4 => jsonMembers f r4 acc2
                        | d :: r4 =>
                            if d = rbraceC then some (.obj acc2, r4) else none
                        | [] => none
                    | none => none
                | _ => none
            | none => none
          else none
      | [] => none

/-- Elements of a JSON array (positioned at a value). -/
def jsonElems (fuel : Nat) (cs : List Char) (acc : List JVal) :
    Option (JVal × List Char) :=
  match fuel with
  | 0 => none
  | f + 1 =>
      match jsonVal f cs with
      | some (v, r) =>
          match jsonWs r with
          | ',' :: r2 => jsonElems f r2 (acc ++ [v])
          | ']' :: r2 => some (.arr (acc ++ [v]), r2)
          | _ => none
      | none => none

end

/-- `JSON.parse(s)` (boundary model, see `jsonVal`). -/
def jsonParse (s : String) : Option JVal :=
  match jsonVal (2 * s.length + 2) s.toList with
  | some (v, rest) => if jsonWs rest = [] then some v else none
  | none => none

/-- `split` on a one-character separator (every separator on these code
paths is a single character), structurally over the character list. -/
def splitOnCAux (sep : Char) : List Char → List Char → List String
  | [], acc => [String.mk acc.reverse]
  | c :: rest, acc =>
      if c = sep then String.mk acc.reverse :: splitOnCAux sep rest []
      else splitOnCAux sep rest (c :: acc)

/-- See `splitOnCAux`. -/
def splitOnC (sep : Char) (s : String) : List String := splitOnCAux sep s.toList []

/-- `startsWith` against a one-character pattern. -/
def strStartsWithC (c : Char) (s : String) : Bool :=
  match s.toList with
  | d :: _ => d = c
  | [] => false

/-- `endsWith` against a one-character pattern. -/
def strEndsWithC (c : Char) (s : String) : Bool :=
  match s.toList.getLast? with
  | some d => d = c
  | none => false

/-- The characters `_sanitizeInput` strips: `< > " ' backtick ; backslash`. -/
def dangerousChar (c : Char) : Bool :=
  c = '<' ∨ c = '>' ∨ c = dquoteC ∨ c = aposC ∨ c = btickC ∨ c = ';' ∨ c = bslashC

/-- `_sanitizeInput` (part_004 lines 274–297) on a string: strip dangerous
characters; if the result looks like JSON, parse it unless it exceeds the
10000-character ceiling (the internal size error is thrown inside the same
`try` and therefore also falls back to the sanitized string). -/
def sanitizeInput (s : String) : JVal :=
  let sanitized := String.mk (s.toList.filter fun c => ¬ dangerousChar c)
  if (strStartsWithC lbraceC sanitized ∧ strEndsWithC rbraceC sanitized) ∨
      (strStartsWithC '[' sanitized ∧ strEndsWithC ']' sanitized) then
    if sanitized.length > 10000 then .str sanitized
    else
      match jsonParse sanitized with
      | some v => v
      | none => .str sanitized
  else .str sanitized

/-- The generic value parser `parseValue` of `_parseQueryParams` (part_004
lines 370–410) on a string (a non-string argument is returned unchanged by
the source): boolean and null literals, integer and float literals, ISO
dates, JSON payloads, and otherwise the sanitized string. -/
def parseValueStr (s : String) : JVal :=
  if strLower s = "true" then .bool true
  else if strLower s = "false" then .bool false
  else if strLower s = "null" then .null
  else if intLiteralOk s then
    match parseIntJs s with
    | .int n => .num n
    | .nan => .str s
  else if floatLiteralOk s then floatLiteralVal s
  else if isoDateOk s then .date s
  else if (strStartsWithC lbraceC s ∧ strEndsWithC rbraceC s) ∨
      (strStartsWithC '[' s ∧ strEndsWithC ']' s) then
    match jsonParse s with
    | some v => v
    | none => sanitizeInput s
  else sanitizeInput s

/-- `parseOperatorValue` (part_004 lines 413–430): string-match operators
keep the raw text, `in`/`notIn` split on commas and coerce each trimmed
element, everything else goes through the generic parser. -/
def parseOperatorValue (op : String) (val : String) : JVal :=
  if op = "contains" ∨ op = "startsWith" ∨ op = "endsWith" ∨ op = "search" ∨ op = "mode" then
    .str val
  else if op = "in" ∨ op = "notIn" then
    .arr ((splitOnC ',' val).map fun item => parseValueStr (jsTrim item))
  else parseValueStr val

/-- One iteration of the simple-filters loop of `_parseQueryParams`
(part_004 lines 432–467): a value containing `:` is split into operator and
value and merged into the existing `where[key]` object via spread; anything
else is assigned as a parsed equality value. -/
def applySimpleFilter (w : List (String × JVal)) (kv : String × String) :
    List (String × JVal) :=
  let k := kv.1
  let value := kv.2
  if value.toList.contains ':' then
    let parts := splitOnC ':' value
    let op := parts.headD ""
    let val := (parts.drop 1).headD ""
    let assigned : JVal :=
      if op = "gt" ∨ op = "gte" ∨ op = "lt" ∨ op = "lte" ∨ op = "equals" ∨ op = "not" then
        parseOperatorValue op val
      else if op = "contains" ∨ op = "startsWith" ∨ op = "endsWith" ∨ op = "search" then
        .str val
      else if op = "in" ∨ op = "notIn" then parseOperatorValue op val
      else if op = "mode" then .str val
      else parseValueStr val
    jsSetProp w k (.obj (jsSetProp (jsEntries ((w.lookup k).getD .null)) op assigned))
  else jsSetProp w k (parseValueStr value)

/-- The sort specification builder of `_parseQueryParams` (lines 340–349):
comma-separated `field:direction` pairs, direction defaulting to `asc`,
malformed pairs silently dropped. -/
def buildOrderBy (s : String) : List (String × JVal) :=
  (splitOnC ',' s).foldl
    (fun acc f =>
      let parts := splitOnC ':' f
      let field := parts.headD ""
      let direction := (parts.drop 1).headD "asc"
      if field ≠ "" ∧ (direction = "asc" ∨ direction = "desc") then
        jsSetProp acc field (.str direction)
      else acc)
    []

/-- The projection builder of `_parseQueryParams` (lines 351–358). -/
def buildSelect (fields : String) : List (String × JVal) :=
  (splitOnC ',' fields).foldl (fun acc f => jsSetProp acc (jsTrim f) (.bool true)) []

/-- The request's query dictionary as `_parseQueryParams` destructures it.
Scalar query parameters arrive as strings (`none` models an absent
parameter, whose destructuring default applies); `filter`/`include` may also
arrive pre-parsed as objects under extended query-string parsing, so they
are full values.  `simpleFilters` is the rest spread, which by construction
excludes the seven destructured names. -/
structure ReqQuery where
  page : Option String := none
  limit : Option String := none
  sort : Option String := none
  fields : Option String := none
  filter : Option JVal := none
  includeQ : Option JVal := none
  withDeleted : Option String := none
  simpleFilters : List (String × String) := []

/-- Truthiness of an optional string query parameter (absent: the
destructuring default applies — falsy for `withDeleted = false`). -/
def truthyOptStr : Option String → Bool
  | none => false
  | some s => s ≠ ""

/-- The filter-tree construction of `_parseQueryParams`: spread of the JSON
filter, soft-delete injection, then the simple-filter merges (in source
order: the injection happens before the simple-filters loop). -/
def buildWhere (cfg : QuerySecurityConfig) (jsonFilter : JVal)
    (withDeleted : Option String) (simpleFilters : List (String × String)) :
    List (String × JVal) :=
  let where0 := jsEntries jsonFilter
  let where1 :=
    if cfg.hasSoftDelete && ¬ truthyOptStr withDeleted then
      jsSetProp where0 "deletedAt" .null
    else where0
  simpleFilters.foldl applySimpleFilter where1

/-- `_parseQueryParams` (part_004 lines 299–482): parse the JSON parameters,
derive pagination, sort, projection and filter tree, assemble the plan
object and run `_validateQueryParams` on it. -/
def parseQueryParams (cfg : QuerySecurityConfig) (req : ReqQuery) :
    Except String QueryArgs := do
  let jsonFilter : JVal ←
    match req.filter with
    | none => pure (.obj [])
    | some f =>
        if truthy f then
          match f with
          | .str s =>
              match jsonParse s with
              | some v => pure v
              | none => .error "Invalid JSON filter parameter"
          | _ => pure f
        else pure (.obj [])
  let parsedInclude : Option JVal ←
    match req.includeQ with
    | none => pure none
    | some i =>
        if truthy i then
          match i with
          | .str s =>
              match jsonParse s with
              | some v => pure (some v)
              | none => .error "Invalid JSON include parameter"
          | _ => pure (some i)
        else pure none
  let parsedPage : JsNum :=
    match req.page with
    | none => .int 1
    | some s => jsMax1 (parseIntJs s)
  let parsedLimit : JsNum :=
    match req.limit with
    | none => jsMinI (.int 10) cfg.maxLimit
    | some s => jsMinI (parseIntJs s) cfg.maxLimit
  let skip := jsMul (jsSubI parsedPage 1) parsedLimit
  let ob : List (String × JVal) :=
    match req.sort with
    | none => []
    | some s => if s ≠ "" then buildOrderBy s else []
  let selectV : JVal :=
    match req.fields with
    | none => .null
    | some s => if s ≠ "" then .obj (buildSelect s) else .null
  let whereF := buildWhere cfg jsonFilter req.withDeleted req.simpleFilters
  let args : QueryArgs :=
    { skip := skip
      take := parsedLimit
      orderBy := if ob.isEmpty then .null else .obj ob
      select := selectV
      includeV :=
        match parsedInclude with
        | some v => if truthy v then v else .null
        | none => .null
      whereV := if whereF.isEmpty then .null else .obj whereF }
  validateQueryParams cfg args >>= fun _ =>
  pure args

/-- The relation metadata of a model as `_isValidRelation` consults it:
the keys of `BaseModel.relationMetadata` and the `relationFields` list
(`validRelations` in the controller). -/
structure ModelMeta where
  relationMetadataNames : List String := []
  relationFieldNames : List String := []
deriving Repr, DecidableEq

/-- `_isValidRelation` (part_004 lines 235–248): the first segment of the
dotted field path is looked up in the relation metadata, falling back to the
`relationFields` list. -/
def isValidRelation (mm : ModelMeta) (fieldPath : String) : Bool :=
  let firstLevelField := (splitOnC '.' fieldPath).headD ""
  mm.relationMetadataNames.contains firstLevelField ||
    mm.relationFieldNames.contains firstLevelField

/-- `Array.isArray`. -/
def isArrayV : JVal → Bool
  | .arr _ => true
  | _ => false

/-- `typeof value === "object" && !Array.isArray(value)` — the relation /
nested-object test of `_processNestedFields` (`value == null` is excluded
before this test is reached). -/
def isObjectNotArray (v : JVal) : Bool :=
  isObjectType v && ¬ isArrayV v

mutual

/-- `_processNestedFields` (part_004 lines 484–584).  The depth bookkeeping
is carried as the remaining budget `rem = maxDepth − currentDepth` (the
entry check `currentDepth >= maxDepth`, which returns an empty object, is
`rem = 0`; every recursive call passes `currentDepth + 1`, i.e. `rem − 1`).
`depth` is the source's `currentDepth`, still needed by the
`currentDepth > 0` test of the nested-object branch. -/
def processNested (mm : ModelMeta) (isUpdate : Bool) (depth rem : Nat)
    (data : JVal) : JVal :=
  match rem with
  | 0 => .obj []
  | r + 1 => .obj (processEntries mm isUpdate depth r (jsEntries data))
termination_by (rem, 0)

/-- The `Object.entries(data)` loop of `_processNestedFields`: null values
are skipped; a declared relation holding a non-array object is rebuilt from
its explicit sub-operations (or the implicit shorthand); any other non-array
object at depth > 0 is recursed into; everything else is copied through. -/
def processEntries (mm : ModelMeta) (isUpdate : Bool) (depth r : Nat) :
    List (String × JVal) → List (String × JVal)
  | [] => []
  | (field, v) :: rest =>
      let tail := processEntries mm isUpdate depth r rest
      if v = JVal.null then tail
      else if isValidRelation mm field && isObjectNotArray v then
        (if isUpdate then
          (field, .obj (
            (if truthyProp v "create" then
              [("create", processNested mm false (depth + 1) r (getPropD v "create"))]
            else []) ++
            (if truthyProp v "connect" then [("connect", getPropD v "connect")] else []) ++
            (if truthyProp v "disconnect" then [("disconnect", getPropD v "disconnect")] else []) ++
            (if truthyProp v "delete" then [("delete", getPropD v "delete")] else []) ++
            (if truthyProp v "update" then
              [("update", processNested mm true (depth + 1) r (getPropD v "update"))]
            else []) ++
            (if ¬ truthyProp v "create" ∧ ¬ truthyProp v "connect" ∧
                ¬ truthyProp v "disconnect" ∧ ¬ truthyProp v "update" ∧
                ¬ truthyProp v "delete" then
              [("update", processNested mm true (depth + 1) r v)]
            else []))) :: tail
        else if truthyProp v "create" ∨ truthyProp v "connect" then
          (field, .obj (
            (if truthyProp v "create" then
              [("create", processNested mm false (depth + 1) r (getPropD v "create"))]
            else []) ++
            (if truthyProp v "connect" then [("connect", getPropD v "connect")] else []))) :: tail
        else
          (field, .obj [("create", processNested mm false (depth + 1) r v)]) :: tail)
      else if depth > 0 && isObjectNotArray v then
        (field, processNested mm isUpdate (depth + 1) r v) :: tail
      else (field, v) :: tail
termination_by es => (r, es.length + 1)

end

/-- `_processNestedFields(data, isUpdate)` as the CRUD handlers call it:
depth 0 against `securityConfig.maximumNestedDepth || 1` (a zero or missing
configuration falls back to 1 through JavaScript's `||`). -/
def processNestedFields (mm : ModelMeta) (cfg : QuerySecurityConfig)
    (isUpdate : Bool) (data : JVal) : JVal :=
  let maxDepth := if cfg.maximumNestedDepth = 0 then 1 else cfg.maximumNestedDepth
  processNested mm isUpdate 0 maxDepth data

/-- A store error as the retry loop inspects it: an optional `code` property
and a message. -/
structure TxErr where
  code : Option String
  msg : String
deriving Repr, DecidableEq

/-- The outcome of one transaction attempt (the unit of work raced against
the timeout: a timeout is a failure whose error carries no `code`). -/
inductive TxOutcome (α : Type) where
  | ok : α → TxOutcome α
  | fail : TxErr → TxOutcome α

/-- `RETRYABLE_ERRORS.includes(error.code)`: an error without a code is
never retryable (the list itself, imported from `constants/Prisma.errors`,
is kept abstract as a parameter). -/
def isRetryableErr (retryable : List String) (e : TxErr) : Bool :=
  match e.code with
  | some c => retryable.contains c
  | none => false

/-- `TransactionOptions` with its defaults (base/BaseModel.ts lines
446–450). -/
structure TransactionOptions where
  maxRetries : Nat := 3
  timeoutMs : Nat := 5000
  isolationLevel : String := "ReadCommitted"

/-- The retry loop of `runInTransaction` (base/BaseModel.ts lines 452–503).
`attempts i` is the outcome of the `i`-th `$transaction` call; the returned
list collects the backoff waits performed between attempts.  A failure that
is not retryable, or one on the last permitted attempt, breaks out of the
loop, after which the last error is thrown (the source keeps it in
`lastError`; when the loop never ran, a generic "Transaction failed" error
is thrown instead — `throwLastTx` below). -/
def throwLastTx {α : Type} : Option TxErr → Except TxErr α
  | some e => .error e
  | none => .error { code := none, msg := "Transaction failed" }

/-- The retry loop body, parameterized by the current attempt index, the
last stored error and the accumulated backoff waits. -/
def runInTransactionAux {α : Type} (retryable : List String)
    (attempts : Nat → TxOutcome α) (maxRetries : Nat) (retry : Nat)
    (lastError : Option TxErr) (waits : List Nat) : Except TxErr α × List Nat :=
  if retry < maxRetries then
    match attempts retry with
    | .ok a => (.ok a, waits)
    | .fail e =>
        if ¬ isRetryableErr retryable e ∨ retry = maxRetries - 1 then
          (.error e, waits)
        else
          runInTransactionAux retryable attempts maxRetries (retry + 1)
            (some e) (waits ++ [100 * 2 ^ retry])
  else
    (throwLastTx lastError, waits)
termination_by maxRetries - retry

/-- `runInTransaction` (base/BaseModel.ts lines 438–503): result and the
sequence of backoff waits. -/
def runInTransaction {α : Type} (retryable : List String)
    (attempts : Nat → TxOutcome α) (opts : TransactionOptions) :
    Except TxErr α × List Nat :=
  runInTransactionAux retryable attempts opts.maxRetries 0 none []

/-- `[a-z_]` — the leading character class of the identifier capture in the
whitelist guard's patterns (the guard scans the lowercased query, so the
`i` flag of the source patterns adds nothing). -/
def isIdentStartC (c : Char) : Bool := ('a' ≤ c ∧ c ≤ 'z') ∨ c = '_'

/-- `[a-z0-9_]`. -/
def isIdentC (c : Char) : Bool := isIdentStartC c || c.isDigit

/-- `\w` = `[A-Za-z0-9_]`, the word class behind `\b`. -/
def isWordC (c : Char) : Bool := c.isAlpha || c.isDigit || c = '_'

/-- Literal keyword at the current position. -/
def matchToken (kw : List Char) (s : List Char) : Option (List Char) :=
  if kw.isPrefixOf s then some (s.drop kw.length) else none

/-- `\s+` at the current position (greedy, at least one). -/
def matchWs1 : List Char → Option (List Char)
  | c :: rest => if jsIsWs c then some (rest.dropWhile jsIsWs) else none
  | [] => none

/-- `([a-z_][a-z0-9_]*)` at the current position (greedy): the capture and
the remainder. -/
def matchIdent : List Char → Option (List Char × List Char)
  | c :: rest =>
      if isIdentStartC c then some (c :: rest.takeWhile isIdentC, rest.dropWhile isIdentC)
      else none
  | [] => none

/-- A sequence of keywords, each followed by `\s+`. -/
def matchKwSeq : List (List Char) → List Char → Option (List Char)
  | [], s => some s
  | kw :: more, s =>
      match matchToken kw s with
      | some s1 =>
          match matchWs1 s1 with
          | some s2 => matchKwSeq more s2
          | none => none
      | none => none

/-- `kw₁\s+…\s+kwₙ\s+([a-z_][a-z0-9_]*)`: the capture and the remainder. -/
def matchKwIdent (kws : List (List Char)) (s : List Char) :
    Option (List Char × List Char) :=
  match matchKwSeq kws s with
  | some s2 => matchIdent s2
  | none => none

theorem dropWhile_len_le {α : Type} (p : α → Bool) (l : List α) :
    (l.dropWhile p).length ≤ l.length := by
  induction l with
  | nil => simp [List.dropWhile]
  | cons a as ih =>
    simp only [List.dropWhile]
    split
    · exact le_trans ih (Nat.le_succ _)
    · simp

theorem matchToken_le {kw s s1} (h : matchToken kw s = some s1) :
    s1.length ≤ s.length := by
  unfold matchToken at h
  split at h
  · cases h; simp
  · cases h

theorem matchWs1_lt {s s1} (h : matchWs1 s = some s1) : s1.length < s.length := by
  unfold matchWs1 at h
  split at h
  next c rest =>
    split at h
    · cases h
      exact Nat.lt_succ_of_le (dropWhile_len_le _ rest)
    · cases h
  · cases h

theorem matchIdent_lt {s c s1} (h : matchIdent s = some (c, s1)) :
    s1.length < s.length := by
  unfold matchIdent at h
  split at h
  next c0 rest =>
    split at h
    · cases h
      exact Nat.lt_succ_of_le (dropWhile_len_le _ rest)
    · cases h
  · cases h

theorem matchKwSeq_le : ∀ {kws s s1}, matchKwSeq kws s = some s1 →
    s1.length ≤ s.length
  | [], s, s1, h => by
      unfold matchKwSeq at h
      cases h; exact Nat.le_refl _
  | kw :: more, s, s1, h => by
      unfold matchKwSeq at h
      split at h
      next t1 heq1 =>
        split at h
        next t2 heq2 =>
          exact le_trans (le_trans (matchKwSeq_le h) (le_of_lt (matchWs1_lt heq2)))
            (matchToken_le heq1)
        next => cases h
      next => cases h

theorem matchKwIdent_lt {kws s c s1} (h : matchKwIdent kws s = some (c, s1)) :
    s1.length < s.length := by
  unfold matchKwIdent at h
  split at h
  next t heq =>
    exact lt_of_lt_of_le (matchIdent_lt h) (matchKwSeq_le heq)
  next => cases h

/-- One `matchAll` scan of pattern `kw₁\s+…\s+kwₙ\s+([a-z_][a-z0-9_]*)` over
the query: from left to right, a match contributes its capture and scanning
resumes after it, otherwise the scan advances one character. -/
def scanKwIdent (kws : List (List Char)) : List Char → List (List Char)
  | [] => []
  | c :: rest =>
      match h : matchKwIdent kws (c :: rest) with
      | some p => p.1 :: scanKwIdent kws p.2
      | none => scanKwIdent kws rest
termination_by s => s.length
decreasing_by
  · exact matchKwIdent_lt (by simpa using h)
  · simp

/-- Fuel-indexed twin of `scanKwIdent` (structural recursion, so that
concrete scans evaluate inside the kernel; `scanKwIdent_eq_F` shows any fuel
above the length of the scanned text computes the same scan). -/
def scanKwIdentF (kws : List (List Char)) : Nat → List Char → List (List Char)
  | 0, _ => []
  | _ + 1, [] => []
  | fuel + 1, c :: rest =>
      match matchKwIdent kws (c :: rest) with
      | some p => p.1 :: scanKwIdentF kws fuel p.2
      | none => scanKwIdentF kws fuel rest

theorem scanKwIdent_cons_some (kws : List (List Char)) (c : Char)
    (rest : List Char) (p : List Char × List Char)
    (h : matchKwIdent kws (c :: rest) = some p) :
    scanKwIdent kws (c :: rest) = p.1 :: scanKwIdent kws p.2 := by
  rw [scanKwIdent]
  split
  next q hq => rw [h] at hq; cases hq; rfl
  next hq => rw [h] at hq; cases hq

theorem scanKwIdent_cons_none (kws : List (List Char)) (c : Char)
    (rest : List Char) (h : matchKwIdent kws (c :: rest) = none) :
    scanKwIdent kws (c :: rest) = scanKwIdent kws rest := by
  rw [scanKwIdent]
  split
  next q hq => rw [h] at hq; cases hq
  next => rfl

theorem scanKwIdent_eq_F (kws : List (List Char)) :
    ∀ (fuel : Nat) (s : List Char), s.length < fuel →
      scanKwIdent kws s = scanKwIdentF kws fuel s
  | 0, _, h => absurd h (by omega)
  | _ + 1, [], _ => by rw [scanKwIdent, scanKwIdentF]
  | fuel + 1, c :: rest, h => by
      cases hm : matchKwIdent kws (c :: rest) with
      | some p =>
          rw [scanKwIdent_cons_some kws c rest p hm, scanKwIdentF]
          simp only [hm]
          have hl : p.2.length < fuel := by
            obtain ⟨cap, s1⟩ := p
            have h2 := matchKwIdent_lt hm
            simp only [List.length_cons] at h h2 ⊢
            omega
          rw [scanKwIdent_eq_F kws fuel p.2 hl]
      | none =>
          rw [scanKwIdent_cons_none kws c rest hm, scanKwIdentF]
          simp only [hm]
          exact scanKwIdent_eq_F kws fuel rest
            (by simp only [List.length_cons] at h; omega)

theorem scanKwIdent_eval (kws : List (List Char)) (s : List Char) :
    scanKwIdent kws s = scanKwIdentF kws (s.length + 1) s :=
  scanKwIdent_eq_F kws (s.length + 1) s (by omega)

/-- `extractAllTables` (base/BaseModel.ts lines 221–239): captures of the
five clause patterns over the lowercased query, in pattern order
(`from`, `join`, `insert into`, `update`, `delete from`); each captured name
is lowercased, a no-op on the `[a-z0-9_]` capture class. -/
def extractAllTables (q : List Char) : List String :=
  (scanKwIdent ["from".toList] q ++
   scanKwIdent ["join".toList] q ++
   scanKwIdent ["insert".toList, "into".toList] q ++
   scanKwIdent ["update".toList] q ++
   scanKwIdent ["delete".toList, "from".toList] q).map
    fun cs => strLower (String.mk cs)

/-- `[...new Set(tables)]`: first occurrences in order. -/
def dedupKeepFirst : List String → List String
  | [] => []
  | x :: rest => x :: dedupKeepFirst (rest.filter fun y => y ≠ x)
termination_by l => l.length
decreasing_by
  exact Nat.lt_succ_of_le (List.length_filter_le _ _)

/-- Fuel-indexed twin of `dedupKeepFirst` (see `scanKwIdentF`). -/
def dedupKeepFirstF : Nat → List String → List String
  | 0, _ => []
  | _ + 1, [] => []
  | fuel + 1, x :: rest => x :: dedupKeepFirstF fuel (rest.filter fun y => y ≠ x)

theorem dedupKeepFirst_eq_F : ∀ (fuel : Nat) (l : List String), l.length < fuel →
    dedupKeepFirst l = dedupKeepFirstF fuel l
  | 0, _, h => absurd h (by omega)
  | _ + 1, [], _ => by rw [dedupKeepFirst, dedupKeepFirstF]
  | fuel + 1, x :: rest, h => by
      rw [dedupKeepFirst, dedupKeepFirstF,
        dedupKeepFirst_eq_F fuel (rest.filter fun y => y ≠ x)
          (by
            have h2 := List.length_filter_le (fun y => y ≠ x) rest
            simp only [List.length_cons] at h
            omega)]

theorem dedupKeepFirst_eval (l : List String) :
    dedupKeepFirst l = dedupKeepFirstF (l.length + 1) l :=
  dedupKeepFirst_eq_F (l.length + 1) l (by omega)

/-- Occurrences of a character. -/
def countChar (c : Char) (s : List Char) : Nat := (s.filter fun d => d = c).length

/-- `/\b\d+\b/` on the test query: a maximal digit run whose neighbours are
not word characters. -/
def hasBareNumberAux : Option Char → List Char → Bool
  | prev, c :: rest =>
      if c.isDigit && (match prev with | some p => ! isWordC p | none => true) then
        match h3 : rest.dropWhile Char.isDigit with
        | [] => true
        | a :: after =>
            if ¬ isWordC a then true
            else hasBareNumberAux (some a) after
      else hasBareNumberAux (some c) rest
  | _, [] => false
termination_by _ s => s.length
decreasing_by
  · have h4 : (rest.dropWhile Char.isDigit).length ≤ rest.length :=
      dropWhile_len_le _ rest
    rw [h3] at h4
    simp only [List.length_cons] at h4 ⊢
    omega
  · simp

/-- See `hasBareNumberAux`. -/
def hasBareNumber (s : List Char) : Bool := hasBareNumberAux none s

/-- Substring containment (`/null/i` is applied to the lowercased copy). -/
def containsSeq (pat : List Char) : List Char → Bool
  | [] => pat.isPrefixOf ([] : List Char)
  | c :: rest => pat.isPrefixOf (c :: rest) || containsSeq pat rest

/-- `validateParameterizedOnly` (base/BaseModel.ts lines 160–171): with the
`?` placeholders removed, any quoted string (two apostrophes or two double
quotes), bare numeric literal or `null` literal rejects. -/
def validateParameterizedOnly (q : List Char) : Except String Unit :=
  let testQuery := q.filter fun c => c ≠ '?'
  if 2 ≤ countChar aposC testQuery ∨ 2 ≤ countChar dquoteC testQuery ∨
      hasBareNumber testQuery ∨
      containsSeq "null".toList (testQuery.map asciiLower) then
    .error "Only parameterized queries are allowed. Use ? placeholders for values."
  else .ok ()

/-- Per-table join permissions (`JoinConfig` in base/BaseModel.ts). -/
structure JoinConfig where
  allowed : Bool
  tables : List String := []
  types : Option (List String) := none
deriving Repr, DecidableEq

/-- The `joins` member of the whitelist: `false`, `true`, or a per-table
map. -/
inductive JoinsSetting where
  | disabled : JoinsSetting
  | enabledAll : JoinsSetting
  | perTable : List (String × JoinConfig) → JoinsSetting
deriving Repr, DecidableEq

/-- A column list or the "all columns allowed" marker `"*"`. -/
inductive ColsSpec where
  | star : ColsSpec
  | cols : List String → ColsSpec
deriving Repr, DecidableEq

/-- Per-table sort permissions (`SortConfig`). -/
structure SortConfig where
  allowed : Bool
  maxColumns : Option Nat := none
  allowedColumns : Option ColsSpec := none
deriving Repr, DecidableEq

/-- The `sorting` member of the whitelist. -/
inductive SortSetting where
  | disabled : SortSetting
  | enabledAll : SortSetting
  | perTable : List (String × SortConfig) → SortSetting
deriving Repr, DecidableEq

/-- `QueryWhitelist` (base/BaseModel.ts lines 26–36). -/
structure QueryWhitelist where
  rawQueryEnabled : Bool
  tables : List String
  columns : List (String × ColsSpec)
  allowedOperations : Option (List String)
  maxQueryLength : Option Nat
  parameterizedOnly : Bool
  joins : JoinsSetting
  sorting : SortSetting
  maxResultRows : Option Nat
deriving Repr, DecidableEq

/-- The static default whitelist of `BaseModel` (lines 49–59): raw queries
disabled, read-only, length-capped, parameterized-only, joins and sorting
off. -/
def defaultQueryWhitelist : QueryWhitelist :=
  { rawQueryEnabled := false
    tables := []
    columns := []
    allowedOperations := some ["SELECT"]
    maxQueryLength := some 5000
    parameterizedOnly := true
    joins := .disabled
    sorting := .disabled
    maxResultRows := some 1000 }

/-- `getJoinConfig` (lines 288–294). -/
def getJoinConfig (wl : QueryWhitelist) (table : String) : Option JoinConfig :=
  match wl.joins with
  | .disabled => none
  | .enabledAll => some { allowed := true, tables := [] }
  | .perTable m => m.lookup table

/-- `getSortConfig` (lines 355–361). -/
def getSortConfig (wl : QueryWhitelist) (table : String) : Option SortConfig :=
  match wl.sorting with
  | .disabled => none
  | .enabledAll => some { allowed := true }
  | .perTable m => m.lookup table

/-- The alternation `(inner|left|right|full)` of the join pattern, tried in
regex order (the four branches start with distinct letters, so ordered
trial is exact), each followed by `\s+join\s+([a-z_][a-z0-9_]*)`. -/
def matchJoinAlt : List String → List Char → Option (String × String × List Char)
  | [], _ => none
  | kw :: more, s =>
      match matchKwIdent [kw.toList, "join".toList] s with
      | some p => some (kw, strLower (String.mk p.1), p.2)
      | none => matchJoinAlt more s

/-- One match of `/(inner|left|right|full)\s+join\s+([a-z_][a-z0-9_]*)/gi`:
join type, joined table, remainder. -/
def matchJoinAt (s : List Char) : Option (String × String × List Char) :=
  matchJoinAlt ["inner", "left", "right", "full"] s

theorem matchJoinAlt_lt : ∀ {kws s a b s1},
    matchJoinAlt kws s = some (a, b, s1) → s1.length < s.length
  | [], _, _, _, _, h => by cases h
  | kw :: more, s, a, b, s1, h => by
      unfold matchJoinAlt at h
      split at h
      next p heq =>
        cases h
        exact matchKwIdent_lt heq
      next => exact matchJoinAlt_lt h

theorem matchJoinAt_lt {s a b s1} (h : matchJoinAt s = some (a, b, s1)) :
    s1.length < s.length := matchJoinAlt_lt h

/-- The `matchAll` scan behind `validateJoins`. -/
def scanJoins : List Char → List (String × String)
  | [] => []
  | c :: rest =>
      match h : matchJoinAt (c :: rest) with
      | some p => (p.1, p.2.1) :: scanJoins p.2.2
      | none => scanJoins rest
termination_by s => s.length
decreasing_by
  · exact matchJoinAt_lt (by simpa using h)
  · simp

/-- `validateJoins` (lines 244–283): each joined table needs a join
permission, an admissible join type when types are restricted, and — when a
co-occurrence list is configured — some other table of the query in that
list. -/
def validateJoins (wl : QueryWhitelist) (uniq : List String) (q : List Char) :
    Except String Unit :=
  go (scanJoins q)
where
  go : List (String × String) → Except String Unit
    | [] => .ok ()
    | (joinType, joinTable) :: rest =>
        (match getJoinConfig wl joinTable with
        | none => .error ("JOIN not allowed with table: " ++ joinTable)
        | some jc =>
            if ¬ jc.allowed then .error ("JOIN not allowed with table: " ++ joinTable)
            else
              (match jc.types with
               | some ts =>
                   if ¬ ts.contains joinType then
                     .error ("JOIN type " ++ sQuote ++ joinType ++ sQuote ++
                       " not allowed for table: " ++ joinTable)
                   else .ok ()
               | none => .ok ()) >>= fun _ =>
              (if jc.tables ≠ [] then
                 if uniq.any (fun t => t ≠ joinTable ∧ jc.tables.contains t) then .ok ()
                 else .error ("Table " ++ joinTable ++
                   " cannot be joined with the specified tables")
               else .ok ())) >>= fun _ =>
        go rest

/-- First match of `/order\s+by\s+([^;]+)(?:\s|;|$)/i`: the order-by clause
(everything up to the first `;` or the end), or `none`. -/
def findOrderBy : List Char → Option (List Char)
  | [] => none
  | c :: rest =>
      match matchKwSeq ["order".toList, "by".toList] (c :: rest) with
      | some s2 =>
          let clause := s2.takeWhile fun d => d ≠ ';'
          if clause.isEmpty then findOrderBy rest else some clause
      | none => findOrderBy rest

/-- The `matchAll` of `/([a-z_][a-z0-9_]*)(?:\.([a-z_][a-z0-9_]*))?/gi` over
the order-by clause: identifier with optional dotted second identifier (a dot
not followed by an identifier is left unconsumed, as the optional group then
fails). -/
def scanSortCols : List Char → List (String × Option String)
  | [] => []
  | c :: rest =>
      match h : matchIdent (c :: rest) with
      | some p =>
          (match h2 : p.2 with
           | '.' :: more =>
               (match h3 : matchIdent more with
                | some p2 =>
                    (String.mk p.1, some (String.mk p2.1)) :: scanSortCols p2.2
                | none => (String.mk p.1, none) :: scanSortCols p.2)
           | _ => (String.mk p.1, none) :: scanSortCols p.2)
      | none => scanSortCols rest
termination_by s => s.length
decreasing_by
  · have a := matchIdent_lt (by simpa using h3)
    have b := matchIdent_lt (by simpa using h)
    have c2 : p.2.length = more.length + 1 := by rw [h2]; simp
    omega
  · exact matchIdent_lt (by simpa using h)
  · exact matchIdent_lt (by simpa using h)
  · simp

/-- The per-column checks of `validateSorting` (lines 299–350), with the
running 1-based column count: sort permission for the (first) identifier,
column-count ceiling, sort column allow-list, and the table's own column
whitelist (`tableColumns && tableColumns !== "*" && !includes` — an absent
entry skips the check). -/
def validateSortingCols (wl : QueryWhitelist) (count : Nat) :
    List (String × Option String) → Except String Unit
  | [] => .ok ()
  | (tableName, m2) :: rest =>
      (let columnName := m2.getD tableName
      match getSortConfig wl tableName with
      | none => .error ("Sorting not allowed for table: " ++ tableName)
      | some sc =>
          if ¬ sc.allowed then .error ("Sorting not allowed for table: " ++ tableName)
          else
            (match sc.maxColumns with
             | some mc =>
                 if count + 1 > mc then
                   .error ("Exceeded maximum sort columns limit: " ++ toString mc)
                 else .ok ()
             | none => .ok ()) >>= fun _ =>
            (match sc.allowedColumns with
             | some (.cols l) =>
                 if ¬ l.contains columnName then
                   .error ("Sorting not allowed on column: " ++ columnName)
                 else .ok ()
             | _ => .ok ()) >>= fun _ =>
            (match wl.columns.lookup tableName with
             | some (.cols l) =>
                 if ¬ l.contains columnName then
                   .error ("Column not in whitelist: " ++ tableName ++ "." ++ columnName)
                 else .ok ()
             | _ => .ok ())) >>= fun _ =>
      validateSortingCols wl (count + 1) rest

/-- `validateSorting` (lines 299–350). -/
def validateSorting (wl : QueryWhitelist) (q : List Char) : Except String Unit :=
  match findOrderBy q with
  | none => .ok ()
  | some clause => validateSortingCols wl 0 (scanSortCols clause)

/-- `\b` after a greedy `[a-z0-9_]*` capture: the next character must not be
a word character (inside the run every split point is followed by a word
character, so the maximal capture is the only candidate). -/
def wbAfter : List Char → Bool
  | [] => true
  | a :: _ => ¬ isWordC a

/-- One match of `\b{table}\.([a-z_][a-z0-9_]*)\b` at the current position
(the leading `\b` is the caller's previous-character test): capture and
remainder. -/
def matchP1At (tbl : List Char) (s : List Char) : Option (List Char × List Char) :=
  if tbl.isPrefixOf s then
    match s.drop tbl.length with
    | '.' :: s3 =>
        match matchIdent s3 with
        | some p => if wbAfter p.2 then some p else none
        | none => none
    | _ => none
  else none

theorem matchP1At_lt {tbl s c s1} (h : matchP1At tbl s = some (c, s1)) :
    s1.length < s.length := by
  unfold matchP1At at h
  split at h
  · split at h
    next s3 heq =>
      split at h
      next p heq2 =>
        split at h
        · cases h
          have h1 := matchIdent_lt (by simpa using heq2)
          have h2 : (s.drop tbl.length).length ≤ s.length := by simp
          rw [heq] at h2
          simp only [List.length_cons] at h2
          omega
        · cases h
      next => cases h
    next => cases h
  · cases h

/-- One match of `\b([a-z_][a-z0-9_]*)\.{table}\b` at the current position. -/
def matchP2At (tbl : List Char) (s : List Char) : Option (List Char × List Char) :=
  match matchIdent s with
  | some p =>
      match p.2 with
      | '.' :: s3 =>
          if tbl.isPrefixOf s3 ∧ wbAfter (s3.drop tbl.length) then
            some (p.1, s3.drop tbl.length)
          else none
      | _ => none
  | none => none

theorem matchP2At_lt {tbl s c s1} (h : matchP2At tbl s = some (c, s1)) :
    s1.length < s.length := by
  unfold matchP2At at h
  split at h
  next p heq =>
    split at h
    next s3 heq2 =>
      split at h
      · cases h
        have h1 := @matchIdent_lt _ p.1 p.2 (by simpa using heq)
        have h2 : (s3.drop tbl.length).length ≤ s3.length := by simp
        have h3 : p.2.length = s3.length + 1 := by rw [heq2]; simp
        omega
      · cases h
    next => cases h
  next => cases h

/-- One match of `\b([a-z_][a-z0-9_]*)\s+as\s+{table}\.` at the current
position (the alias pattern). -/
def matchP3At (tbl : List Char) (s : List Char) : Option (List Char × List Char) :=
  match matchIdent s with
  | some p =>
      match matchWs1 p.2 with
      | some s2 =>
          if ("as".toList).isPrefixOf s2 then
            match matchWs1 (s2.drop 2) with
            | some s3 =>
                if tbl.isPrefixOf s3 then
                  match s3.drop tbl.length with
                  | '.' :: s4 => some (p.1, s4)
                  | _ => none
                else none
            | none => none
          else none
      | none => none
  | none => none

theorem matchP3At_lt {tbl s c s1} (h : matchP3At tbl s = some (c, s1)) :
    s1.length < s.length := by
  unfold matchP3At at h
  split at h
  next p heq =>
    split at h
    next s2 heq2 =>
      split at h
      · split at h
        next s3 heq3 =>
          split at h
          · split at h
            next s4 heq4 =>
              cases h
              have h1 := @matchIdent_lt _ p.1 p.2 (by simpa using heq)
              have h2 := matchWs1_lt heq2
              have h3 := matchWs1_lt heq3
              have h4 : (s2.drop 2).length ≤ s2.length := by simp
              have h5 : (s3.drop tbl.length).length ≤ s3.length := by simp
              rw [heq4] at h5
              simp only [List.length_cons] at h5
              omega
            next => cases h
          · cases h
        next => cases h
      · cases h
    next => cases h
  next => cases h

/-- A `matchAll` scan that tracks the previous character for the leading
`\b` test (a match resumes after its end with the last consumed character as
the new previous character; otherwise the scan advances one character). -/
def scanWithWb (matchAt : List Char → Option (List Char × List Char))
    (hlt : ∀ {s c s1}, matchAt s = some (c, s1) → s1.length < s.length)
    (resumePrev : List Char → Char) :
    Option Char → List Char → List (List Char)
  | _, [] => []
  | prev, c :: rest =>
      let prevOk := match prev with | some p => ! isWordC p | none => true
      if prevOk then
        match h : matchAt (c :: rest) with
        | some p => p.1 :: scanWithWb matchAt hlt resumePrev (some (resumePrev p.1)) p.2
        | none => scanWithWb matchAt hlt resumePrev (some c) rest
      else scanWithWb matchAt hlt resumePrev (some c) rest
termination_by _ s => s.length
decreasing_by
  · exact hlt (by simpa using h)
  · simp

/-- The column captures of the three patterns of `validateSelectQuery`
(lines 366–391) for one table, in pattern order.  After a `p1`/`p2` match
the previous character is the last character of an identifier run (a word
character); after a `p3` match it is the final dot. -/
def selectColsFor (tbl : String) (q : List Char) : List String :=
  ((scanWithWb (matchP1At tbl.toList) matchP1At_lt (fun cap => cap.getLastD 'a') none q) ++
   (scanWithWb (matchP2At tbl.toList) matchP2At_lt (fun _ => 'a') none q) ++
   (scanWithWb (matchP3At tbl.toList) matchP3At_lt (fun _ => '.') none q)).map
    String.mk

/-- The per-column allow-list check of `validateSelectQuery`: a table with
no `columns` entry crashes the guard on its first column reference
(`undefined.includes` raises a TypeError, surfaced here as an error). -/
def checkSelectCols (spec : Option ColsSpec) (t : String) :
    List String → Except String Unit
  | [] => .ok ()
  | col :: rest =>
      match spec with
      | none => .error "TypeError: allowedColumns is undefined"
      | some .star => checkSelectCols spec t rest
      | some (.cols l) =>
          if ¬ l.contains col then
            .error ("Disallowed column for table " ++ t ++ ": " ++ col)
          else checkSelectCols spec t rest

/-- `validateSelectQuery` (lines 366–391): for each table of the query whose
columns entry is not the `"*"` marker, every captured column reference must
be allowed. -/
def validateSelectQuery (wl : QueryWhitelist) (tables : List String)
    (q : List Char) : Except String Unit :=
  match tables with
  | [] => .ok ()
  | t :: rest =>
      (match wl.columns.lookup t with
       | some .star => .ok ()
       | spec => checkSelectCols spec t (selectColsFor t q)) >>= fun _ =>
      validateSelectQuery wl rest q

/-- First capture of `kw₁\s+…\s+kwₙ\s+([a-z_][a-z0-9_]*)` (`String.match`
returns the first match only). -/
def findFirstKwIdent (kws : List (List Char)) : List Char → Option (List Char)
  | [] => none
  | c :: rest =>
      match matchKwIdent kws (c :: rest) with
      | some p => some p.1
      | none => findFirstKwIdent kws rest

/-- First capture of `/\(([^)]+)\)\s*values/i` — the explicit column list of
an INSERT statement. -/
def findInsertColumns : List Char → Option (List Char)
  | [] => none
  | c :: rest =>
      if c = '(' then
        let inner := rest.takeWhile fun d => d ≠ ')'
        match rest.drop inner.length with
        | ')' :: after =>
            if ¬ inner.isEmpty ∧ ("values".toList).isPrefixOf (after.dropWhile jsIsWs) then
              some inner
            else findInsertColumns rest
        | _ => findInsertColumns rest
      else findInsertColumns rest

/-- The per-column check of `validateInsertQuery`. -/
def checkInsertCols (l : List String) : List String → Except String Unit
  | [] => .ok ()
  | col :: rest =>
      if ¬ l.contains col then .error ("Disallowed column for INSERT: " ++ col)
      else checkInsertCols l rest

/-- `validateInsertQuery` (lines 393–411): the column list of the first
`insert into` clause is checked against the target table's allow-list
(absent or `"*"` entries skip the check). -/
def validateInsertQuery (wl : QueryWhitelist) (q : List Char) :
    Except String Unit :=
  match findFirstKwIdent ["insert".toList, "into".toList] q with
  | none => .ok ()
  | some tblCs =>
      match wl.columns.lookup (strLower (String.mk tblCs)) with
      | some (.cols l) =>
          match findInsertColumns q with
          | some inner =>
              checkInsertCols l ((splitOnC ',' (String.mk inner)).map jsTrim)
          | none => .ok ()
      | _ => .ok ()

/-- One match of `/set\s+([a-z_][a-z0-9_]*)\s*=/gi`. -/
def matchSetColAt (s : List Char) : Option (List Char × List Char) :=
  match matchKwSeq ["set".toList] s with
  | some s2 =>
      match matchIdent s2 with
      | some p =>
          match p.2.dropWhile jsIsWs with
          | '=' :: r => some (p.1, r)
          | _ => none
      | none => none
  | none => none

theorem matchSetColAt_lt {s c s1} (h : matchSetColAt s = some (c, s1)) :
    s1.length < s.length := by
  unfold matchSetColAt at h
  split at h
  next s2 heq =>
    split at h
    next p heq2 =>
      split at h
      next r heq3 =>
        cases h
        have h1 := matchKwSeq_le heq
        have h2 := @matchIdent_lt _ p.1 p.2 (by simpa using heq2)
        have h3 : (p.2.dropWhile jsIsWs).length ≤ p.2.length := dropWhile_len_le _ _
        rw [heq3] at h3
        simp only [List.length_cons] at h3
        omega
      next => cases h
    next => cases h
  next => cases h

/-- The `matchAll` scan of the SET-clause pattern. -/
def scanSetCols : List Char → List (List Char)
  | [] => []
  | c :: rest =>
      match h : matchSetColAt (c :: rest) with
      | some p => p.1 :: scanSetCols p.2
      | none => scanSetCols rest
termination_by s => s.length
decreasing_by
  · exact matchSetColAt_lt (by simpa using h)
  · simp

/-- The per-column check of `validateUpdateQuery` (captures lowercased as in
the source). -/
def checkUpdateCols (l : List String) : List String → Except String Unit
  | [] => .ok ()
  | col :: rest =>
      if ¬ l.contains col then .error ("Disallowed column for UPDATE: " ++ col)
      else checkUpdateCols l rest

/-- `validateUpdateQuery` (lines 413–429). -/
def validateUpdateQuery (wl : QueryWhitelist) (q : List Char) :
    Except String Unit :=
  match findFirstKwIdent ["update".toList] q with
  | none => .ok ()
  | some tblCs =>
      match wl.columns.lookup (strLower (String.mk tblCs)) with
      | some (.cols l) =>
          checkUpdateCols l ((scanSetCols q).map fun cs => strLower (String.mk cs))
      | _ => .ok ()

/-- The table loop of `validateQuery` (lines 184–189): every unique
extracted table must be in the allow-list. -/
def validateTables (allowedTables : List String) : List String → Except String Unit
  | [] => .ok ()
  | t :: rest =>
      if ¬ allowedTables.contains t then .error ("Disallowed table: " ++ t)
      else validateTables allowedTables rest

/-- `validateQuery` (base/BaseModel.ts lines 176–216): table whitelist
first, then joins and sorting when enabled (the truthiness of the `joins` /
`sorting` members — `false` disables), then the operation-specific column
validation (`validateDeleteQuery` performs no checks; `tables` is accepted
but unused by the source's `validateSorting`). -/
def validateQuery (wl : QueryWhitelist) (q : List Char) (operation : String) :
    Except String Unit :=
  let uniqueTables := dedupKeepFirst (extractAllTables q)
  validateTables wl.tables uniqueTables >>= fun _ =>
  (match wl.joins with
   | .disabled => .ok ()
   | _ => validateJoins wl uniqueTables q) >>= fun _ =>
  (match wl.sorting with
   | .disabled => .ok ()
   | _ => validateSorting wl q) >>= fun _ =>
  match operation with
  | "select" => validateSelectQuery wl uniqueTables q
  | "insert" => validateInsertQuery wl q
  | "update" => validateUpdateQuery wl q
  | _ => .ok ()

/-- `queryRaw` (base/BaseModel.ts lines 92–155) up to the point where the
query is handed to the store: feature flag, non-emptiness, length ceiling
(`maxQueryLength && …` — a zero ceiling is falsy and disables the check),
parameterization, leading-verb allow-list (`allowedOperations?.includes` —
an absent list rejects every operation), then `validateQuery` on the
lowercased, trimmed text.  A returned `.ok` carries the original query text,
which is what `Prisma.sql` receives; result-row truncation happens after
execution and is outside this model. -/
def queryRaw (wl : QueryWhitelist) (query : String) : Except String String :=
  (if ¬ wl.rawQueryEnabled then .error "Raw queries are not enabled for this model"
  else .ok ()) >>= fun _ =>
  (if jsTrim query = "" then .error "Query must be a non-empty string"
  else .ok ()) >>= fun _ =>
  (match wl.maxQueryLength with
   | some m =>
       if m ≠ 0 ∧ query.length > m then .error "Query exceeds maximum allowed length"
       else .ok ()
   | none => .ok ()) >>= fun _ =>
  (if wl.parameterizedOnly then validateParameterizedOnly query.toList
  else .ok ()) >>= fun _ =>
  let queryLower := jsTrim (strLower query)
  let operation := String.mk (queryLower.toList.takeWhile fun c => ¬ jsIsWs c)
  (match wl.allowedOperations with
   | none => .error ("Disallowed SQL operation: " ++ operation)
   | some ops =>
       if ¬ ops.contains (strUpper operation) then
         .error ("Disallowed SQL operation: " ++ operation)
       else .ok ()) >>= fun _ =>
  validateQuery wl queryLower.toList operation >>= fun _ =>
  .ok query

theorem seq_ok_iff {ε : Type} {a b : Except ε Unit} :
    (a >>= fun _ => b) = .ok () ↔ a = .ok () ∧ b = .ok () := by
  cases a with
  | error e => simp [Bind.bind, Except.bind]
  | ok u => cases u; simp [Bind.bind, Except.bind]

theorem seq_err_iff {ε : Type} {a b : Except ε Unit} {e : ε} :
    (a >>= fun _ => b) = .error e ↔ a = .error e ∨ (a = .ok () ∧ b = .error e) := by
  cases a with
  | error e0 => simp [Bind.bind, Except.bind]
  | ok u => cases u; simp [Bind.bind, Except.bind]

theorem seqA_ok_iff {ε α : Type} {a : Except ε Unit} {m : Except ε α} {x : α} :
    (a >>= fun _ => m) = .ok x ↔ a = .ok () ∧ m = .ok x := by
  cases a with
  | error e => simp [Bind.bind, Except.bind]
  | ok u => cases u; simp [Bind.bind, Except.bind]

theorem seqA_err_iff {ε α : Type} {a : Except ε Unit} {m : Except ε α} {e : ε} :
    (a >>= fun _ => m) = .error e ↔
      a = .error e ∨ (a = .ok () ∧ m = .error e) := by
  cases a with
  | error e0 => simp [Bind.bind, Except.bind]
  | ok u => cases u; simp [Bind.bind, Except.bind]

theorem bind_ok_unit {ε α : Type} {a : Except ε Unit} {m : Except ε α}
    (h : a = .ok ()) : (a >>= fun _ => m) = m := by
  subst h; rfl

theorem bind_err_unit {ε α : Type} {a : Except ε Unit} {m : Except ε α} {e : ε}
    (h : a = .error e) : (a >>= fun _ => m) = .error e := by
  subst h; rfl

/-- The first table of the list failing the `includes` test — the iteration
of the `for` loop in `validateQuery` at which it throws. -/
def firstBadTable (allowedTables : List String) : List String → Option String
  | [] => none
  | t :: rest =>
      if ¬ allowedTables.contains t then some t
      else firstBadTable allowedTables rest

theorem validateTables_eq (allowedTables : List String) :
    ∀ l : List String, validateTables allowedTables l =
      match firstBadTable allowedTables l with
      | some t => .error ("Disallowed table: " ++ t)
      | none => .ok ()
  | [] => by rw [validateTables, firstBadTable]
  | t :: rest => by
      rw [validateTables, firstBadTable]
      by_cases h : t ∈ allowedTables
      · rw [if_neg (by simp [h]), if_neg (by simp [h])]
        exact validateTables_eq allowedTables rest
      · rw [if_pos (by simp [h]), if_pos (by simp [h])]

theorem firstBadTable_none_iff (allowedTables : List String) :
    ∀ l : List String, firstBadTable allowedTables l = none ↔
      ∀ t ∈ l, allowedTables.contains t = true
  | [] => by simp [firstBadTable]
  | t :: rest => by
      rw [firstBadTable]
      by_cases h : t ∈ allowedTables
      · rw [if_neg (by simp [h])]
        rw [firstBadTable_none_iff allowedTables rest]
        simp [h]
      · rw [if_pos (by simp [h])]
        simp [h]

theorem firstBadTable_some (allowedTables : List String) :
    ∀ (l : List String) (t : String), firstBadTable allowedTables l = some t →
      t ∈ l ∧ allowedTables.contains t = false
  | [], t => by simp [firstBadTable]
  | x :: rest, t => by
      rw [firstBadTable]
      by_cases h : x ∈ allowedTables
      · rw [if_neg (by simp [h])]
        intro hr
        obtain ⟨h1, h2⟩ := firstBadTable_some allowedTables rest t hr
        exact ⟨List.mem_cons_of_mem _ h1, h2⟩
      · rw [if_pos (by simp [h])]
        intro hr
        injection hr with hxt
        subst hxt
        exact ⟨List.mem_cons_self _ _, by simp [h]⟩

theorem mem_dedupKeepFirst :
    ∀ (l : List String) (t : String), t ∈ dedupKeepFirst l ↔ t ∈ l
  | [], t => by rw [dedupKeepFirst]
  | x :: rest, t => by
      rw [dedupKeepFirst]
      by_cases hx : t = x
      · subst hx; simp
      · simp only [List.mem_cons]
        rw [mem_dedupKeepFirst (rest.filter fun y => y ≠ x) t]
        simp [hx, List.mem_filter]
termination_by l _ => l.length
decreasing_by exact Nat.lt_succ_of_le (List.length_filter_le _ _)

/-- The checks of `queryRaw` that precede `validateQuery`, all passing:
feature flag on, non-empty text, within the length ceiling, parameterized
when demanded, and a leading verb on the `allowedOperations` list. -/
def PrelimsOk (wl : QueryWhitelist) (query : String) : Prop :=
  wl.rawQueryEnabled = true ∧
  jsTrim query ≠ "" ∧
  (∀ m, wl.maxQueryLength = some m → m = 0 ∨ query.length ≤ m) ∧
  (wl.parameterizedOnly = true → validateParameterizedOnly query.toList = .ok ()) ∧
  (∃ ops, wl.allowedOperations = some ops ∧
    ops.contains (strUpper (String.mk
      ((jsTrim (strLower query)).toList.takeWhile fun c => ¬ jsIsWs c))) = true)

theorem validateFilterIndexKeys_ok_iff (allowed : List String) :
    ∀ ks, validateFilterIndexKeys allowed ks = .ok () ↔
      ∀ k ∈ ks, k = "deletedAt" ∨ allowed.contains k = true
  | [] => by simp [validateFilterIndexKeys]
  | k :: rest => by
      simp only [validateFilterIndexKeys, seq_ok_iff,
        validateFilterIndexKeys_ok_iff allowed rest, List.mem_cons]
      constructor
      · rintro ⟨h1, h2⟩ x (rfl | hx)
        · by_contra hc
          push_neg at hc
          have hx : x ∉ allowed := by simpa using hc.2
          simp [hc.1, hx] at h1
        · exact h2 x hx
      · intro h
        refine ⟨?_, fun x hx => h x (Or.inr hx)⟩
        rcases h k (Or.inl rfl) with h | h
        · simp [h]
        · have hk : k ∈ allowed := by simpa using h
          simp [h, hk]

theorem validateFilterIndexKeys_err (allowed : List String) :
    ∀ ks e, validateFilterIndexKeys allowed ks = .error e →
      ∃ k, allowed.contains k = false ∧ k ≠ "deletedAt" ∧ e = filterMsg k
  | [], e, h => by simp [validateFilterIndexKeys] at h
  | k :: rest, e, h => by
      simp only [validateFilterIndexKeys, seq_err_iff] at h
      rcases h with h | ⟨-, h⟩
      · split at h
        next hc =>
          cases h
          exact ⟨k, by simpa using hc.2, hc.1, rfl⟩
        next => cases h
      · exact validateFilterIndexKeys_err allowed rest e h

mutual

theorem validateFilterFields_ok_iff (allowed : List String) :
    ∀ v, validateFilterFields allowed v = .ok () ↔ FilterKeysOk allowed v
  | .null => by simp [validateFilterFields, FilterKeysOk]
  | .bool b => by simp [validateFilterFields, FilterKeysOk]
  | .num n => by simp [validateFilterFields, FilterKeysOk]
  | .decimal m s => by simp [validateFilterFields, FilterKeysOk]
  | .date s => by simp [validateFilterFields, FilterKeysOk]
  | .str s => by
      simp [validateFilterFields, FilterKeysOk,
        validateFilterIndexKeys_ok_iff allowed]
  | .arr xs => by
      simp [validateFilterFields, FilterKeysOk,
        validateFilterIndexKeys_ok_iff allowed]
  | .obj fs => by
      simpa [validateFilterFields, FilterKeysOk] using
        validateFilterEntries_ok_iff allowed fs

theorem validateFilterHead_ok_iff (allowed : List String) (k : String) :
    ∀ v, validateFilterHead allowed k v = .ok () ↔ FilterHeadOk allowed k v
  | .arr xs => by
      by_cases hl : k = "AND" ∨ k = "OR" ∨ k = "NOT"
      · simpa [validateFilterHead, FilterHeadOk, hl] using
          validateFilterList_ok_iff allowed xs
      · simp only [validateFilterHead, FilterHeadOk, if_neg hl]
        split
        · next hc => simp [hc.1, fun h => (by simpa using hc.2 : k ∉ allowed) (by simpa using h)]
        · next hc =>
            rw [not_and_or, not_not] at hc
            rcases hc with hc | hc
            · simp [hc]
            · have : k ∈ allowed := by simpa using hc
              simp [this]
  | .obj gs => by
      by_cases hl : k = "AND" ∨ k = "OR" ∨ k = "NOT"
      · simpa [validateFilterHead, FilterHeadOk, hl] using
          validateFilterEntries_ok_iff allowed gs
      · simp only [validateFilterHead, FilterHeadOk, if_neg hl]
        split
        · next hc => simp [hc.1, fun h => (by simpa using hc.2 : k ∉ allowed) (by simpa using h)]
        · next hc =>
            rw [not_and_or, not_not] at hc
            rcases hc with hc | hc
            · simp [hc]
            · have : k ∈ allowed := by simpa using hc
              simp [this]
  | .null => by
      by_cases hl : k = "AND" ∨ k = "OR" ∨ k = "NOT"
      · simp [validateFilterHead, FilterHeadOk, hl]
      · simp only [validateFilterHead, FilterHeadOk, if_neg hl]
        split
        · next hc => simp [hc.1, fun h => (by simpa using hc.2 : k ∉ allowed) (by simpa using h)]
        · next hc =>
            rw [not_and_or, not_not] at hc
            rcases hc with hc | hc
            · simp [hc]
            · have : k ∈ allowed := by simpa using hc
              simp [this]
  | .bool b => by
      by_cases hl : k = "AND" ∨ k = "OR" ∨ k = "NOT"
      · simp [validateFilterHead, FilterHeadOk, hl]
      · simp only [validateFilterHead, FilterHeadOk, if_neg hl]
        split
        · next hc => simp [hc.1, fun h => (by simpa using hc.2 : k ∉ allowed) (by simpa using h)]
        · next hc =>
            rw [not_and_or, not_not] at hc
            rcases hc with hc | hc
            · simp [hc]
            · have : k ∈ allowed := by simpa using hc
              simp [this]
  | .num n => by
      by_cases hl : k = "AND" ∨ k = "OR" ∨ k = "NOT"
      · simp [validateFilterHead, FilterHeadOk, hl]
      · simp only [validateFilterHead, FilterHeadOk, if_neg hl]
        split
        · next hc => simp [hc.1, fun h => (by simpa using hc.2 : k ∉ allowed) (by simpa using h)]
        · next hc =>
            rw [not_and_or, not_not] at hc
            rcases hc with hc | hc
            · simp [hc]
            · have : k ∈ allowed := by simpa using hc
              simp [this]
  | .decimal m sc => by
      by_cases hl : k = "AND" ∨ k = "OR" ∨ k = "NOT"
      · simp [validateFilterHead, FilterHeadOk, hl]
      · simp only [validateFilterHead, FilterHeadOk, if_neg hl]
        split
        · next hc => simp [hc.1, fun h => (by simpa using hc.2 : k ∉ allowed) (by simpa using h)]
        · next hc =>
            rw [not_and_or, not_not] at hc
            rcases hc with hc | hc
            · simp [hc]
            · have : k ∈ allowed := by simpa using hc
              simp [this]
  | .str st => by
      by_cases hl : k = "AND" ∨ k = "OR" ∨ k = "NOT"
      · simp [validateFilterHead, FilterHeadOk, hl]
      · simp only [validateFilterHead, FilterHeadOk, if_neg hl]
        split
        · next hc => simp [hc.1, fun h => (by simpa using hc.2 : k ∉ allowed) (by simpa using h)]
        · next hc =>
            rw [not_and_or, not_not] at hc
            rcases hc with hc | hc
            · simp [hc]
            · have : k ∈ allowed := by simpa using hc
              simp [this]
  | .date st => by
      by_cases hl : k = "AND" ∨ k = "OR" ∨ k = "NOT"
      · simp [validateFilterHead, FilterHeadOk, hl]
      · simp only [validateFilterHead, FilterHeadOk, if_neg hl]
        split
        · next hc => simp [hc.1, fun h => (by simpa using hc.2 : k ∉ allowed) (by simpa using h)]
        · next hc =>
            rw [not_and_or, not_not] at hc
            rcases hc with hc | hc
            · simp [hc]
            · have : k ∈ allowed := by simpa using hc
              simp [this]

theorem validateFilterEntries_ok_iff (allowed : List String) :
    ∀ fs, validateFilterEntries allowed fs = .ok () ↔ FilterEntriesOk allowed fs
  | [] => by simp [validateFilterEntries, FilterEntriesOk]
  | (k, v) :: rest => by
      simp [validateFilterEntries, FilterEntriesOk, seq_ok_iff,
        validateFilterEntries_ok_iff allowed rest,
        validateFilterHead_ok_iff allowed k v]

theorem validateFilterList_ok_iff (allowed : List String) :
    ∀ xs, validateFilterList allowed xs = .ok () ↔ FilterListOk allowed xs
  | [] => by simp [validateFilterList, FilterListOk]
  | v :: rest => by
      simp [validateFilterList, FilterListOk, seq_ok_iff,
        validateFilterList_ok_iff allowed rest,
        validateFilterFields_ok_iff allowed v]

end

mutual

theorem validateFilterFields_err (allowed : List String) :
    ∀ v e, validateFilterFields allowed v = .error e →
      ∃ k, allowed.contains k = false ∧ k ≠ "deletedAt" ∧ e = filterMsg k
  | .obj fs, e, h =>
      validateFilterEntries_err allowed fs e (by simpa [validateFilterFields] using h)
  | .str s, e, h =>
      validateFilterIndexKeys_err allowed _ e (by simpa [validateFilterFields] using h)
  | .arr xs, e, h =>
      validateFilterIndexKeys_err allowed _ e (by simpa [validateFilterFields] using h)
  | .null, e, h => by simp [validateFilterFields] at h
  | .bool b, e, h => by simp [validateFilterFields] at h
  | .num n, e, h => by simp [validateFilterFields] at h
  | .decimal m s, e, h => by simp [validateFilterFields] at h
  | .date s, e, h => by simp [validateFilterFields] at h

theorem validateFilterHead_err (allowed : List String) (k : String) :
    ∀ v e, validateFilterHead allowed k v = .error e →
      ∃ k0, allowed.contains k0 = false ∧ k0 ≠ "deletedAt" ∧ e = filterMsg k0
  | v, e, h => by
      by_cases hl : k = "AND" ∨ k = "OR" ∨ k = "NOT"
      · rw [validateFilterHead.eq_def, if_pos hl] at h
        match v, h with
        | .arr xs, h => exact validateFilterList_err allowed xs e h
        | .obj gs, h => exact validateFilterEntries_err allowed gs e h
        | .null, h => exact Except.noConfusion h
        | .bool _, h => exact Except.noConfusion h
        | .num _, h => exact Except.noConfusion h
        | .decimal _ _, h => exact Except.noConfusion h
        | .str _, h => exact Except.noConfusion h
        | .date _, h => exact Except.noConfusion h
      · rw [validateFilterHead.eq_def, if_neg hl] at h
        split at h
        next hc =>
          cases h
          exact ⟨k, by simpa using hc.2, hc.1, rfl⟩
        next => cases h

theorem validateFilterEntries_err (allowed : List String) :
    ∀ fs e, validateFilterEntries allowed fs = .error e →
      ∃ k, allowed.contains k = false ∧ k ≠ "deletedAt" ∧ e = filterMsg k
  | [], e, h => by simp [validateFilterEntries] at h
  | (k, v) :: rest, e, h => by
      rw [validateFilterEntries, seq_err_iff] at h
      rcases h with h | ⟨-, h⟩
      · exact validateFilterHead_err allowed k v e h
      · exact validateFilterEntries_err allowed rest e h

theorem validateFilterList_err (allowed : List String) :
    ∀ xs e, validateFilterList allowed xs = .error e →
      ∃ k, allowed.contains k = false ∧ k ≠ "deletedAt" ∧ e = filterMsg k
  | [], e, h => by simp [validateFilterList] at h
  | v :: rest, e, h => by
      rw [validateFilterList, seq_err_iff] at h
      rcases h with h | ⟨-, h⟩
      · exact validateFilterFields_err allowed v e h
      · exact validateFilterList_err allowed rest e h

end

theorem validateFilterHead_deletedAt (allowed : List String) (v : JVal) :
    validateFilterHead allowed "deletedAt" v = .ok () := by
  rw [validateFilterHead.eq_def, if_neg (by decide)]
  simp

theorem validateFilterEntries_setDeletedAt (allowed : List String) :
    ∀ fs, validateFilterEntries allowed (jsSetProp fs "deletedAt" JVal.null) =
      validateFilterEntries allowed fs
  | [] => by
      simp [jsSetProp, validateFilterEntries, validateFilterHead_deletedAt,
        Bind.bind, Except.bind]
  | (k0, v0) :: rest => by
      by_cases hk : k0 = "deletedAt"
      · subst hk
        simp only [jsSetProp, if_pos rfl, validateFilterEntries,
          validateFilterHead_deletedAt, Bind.bind, Except.bind]
      · simp only [jsSetProp, if_neg hk, validateFilterEntries,
          validateFilterEntries_setDeletedAt allowed rest]

theorem firstDisallowed_ok_iff (allowed : List String) (msg : String → String) :
    ∀ ks, firstDisallowed allowed msg ks = .ok () ↔
      ∀ k ∈ ks, allowed.contains k = true
  | [] => by simp [firstDisallowed]
  | k :: rest => by
      rw [firstDisallowed]
      split
      next hc =>
        have hk : k ∉ allowed := by simpa using hc
        constructor
        · intro h
          exact Except.noConfusion h
        · intro h
          exact absurd (by simpa using h k (List.mem_cons_self k rest)) hk
      next hc =>
        rw [not_not] at hc
        rw [firstDisallowed_ok_iff allowed msg rest]
        constructor
        · intro h x hx
          rcases List.mem_cons.1 hx with rfl | hx
          · exact hc
          · exact h x hx
        · intro h x hx
          exact h x (List.mem_cons_of_mem _ hx)

theorem firstDisallowed_err (allowed : List String) (msg : String → String) :
    ∀ ks e, firstDisallowed allowed msg ks = .error e →
      ∃ k, allowed.contains k = false ∧ e = msg k
  | [], e, h => by simp [firstDisallowed] at h
  | k :: rest, e, h => by
      rw [firstDisallowed] at h
      split at h
      next hc =>
        cases h
        exact ⟨k, by simpa using hc, rfl⟩
      next => exact firstDisallowed_err allowed msg rest e h

/-- The acceptance condition of `_validateQueryParams`, member by member:
filter keys (with the `deletedAt` exemption) recursively allowed, sort and
select keys allowed, inclusion tree within depth with allowed keys, and the
take within the cap (`>` is false for NaN, as in the source). -/
def GoodParams (cfg : QuerySecurityConfig) (p : QueryArgs) : Prop :=
  (truthy p.whereV = true → FilterKeysOk cfg.allowedFilters p.whereV) ∧
  (truthy p.orderBy = true →
    ∀ k ∈ jsKeysOf p.orderBy, cfg.allowedSortFields.contains k = true) ∧
  (truthy p.includeV = true →
    IncludeOkRem cfg.allowedIncludeRelations cfg.maxIncludeDepth p.includeV) ∧
  (truthy p.select = true →
    ∀ k ∈ jsKeysOf p.select, cfg.allowedSelectFields.contains k = true) ∧
  jsGtI p.take cfg.maxLimit = false

/-- A payload entry that `_processNestedFields` copies through verbatim at
any positive depth: non-null and not a non-array object (scalars, strings
and arrays qualify). -/
def FlatEntry (p : String × JVal) : Prop :=
  p.2 ≠ JVal.null ∧ isObjectNotArray p.2 = false

/-- A plain object all of whose fields are copied verbatim. -/
def FlatObj (v : JVal) : Prop :=
  ∃ cs, v = JVal.obj cs ∧ ∀ p ∈ cs, FlatEntry p

/-- An optional sub-operation entry. -/
def opt1 (k : String) : Option JVal → List (String × JVal)
  | some v => [(k, v)]
  | none => []

/-- A relation value in fully explicit form: its keys are a subset of the
sub-operation keys in the translator's canonical order (`create`, `connect`,
`disconnect`, `delete`, `update`), at least one is present, `create`/`update`
payloads are flat objects (so their recursive translation is the identity
within budget), the others are truthy and copied verbatim;
`disconnect`/`delete`/`update` only occur in update mode. -/
def ExplicitRelValue (isUpdate : Bool) (gs : List (String × JVal)) : Prop :=
  ∃ oc okv od odel ou : Option JVal,
    gs = opt1 "create" oc ++ opt1 "connect" okv ++ opt1 "disconnect" od ++
      opt1 "delete" odel ++ opt1 "update" ou ∧
    ¬ (oc = none ∧ okv = none ∧ od = none ∧ odel = none ∧ ou = none) ∧
    (∀ c, oc = some c → FlatObj c) ∧
    (∀ v, okv = some v → truthy v = true) ∧
    (∀ v, od = some v → isUpdate = true ∧ truthy v = true) ∧
    (∀ v, odel = some v → isUpdate = true ∧ truthy v = true) ∧
    (∀ v, ou = some v → isUpdate = true ∧ FlatObj v)

/-- A top-level payload in fully explicit form: no null fields, and every
declared relation field holding an object holds an `ExplicitRelValue`. -/
def ExplicitPayload (mm : ModelMeta) (isUpdate : Bool)
    (fs : List (String × JVal)) : Prop :=
  ∀ p ∈ fs, p.2 ≠ JVal.null ∧
    (isValidRelation mm p.1 = true → isObjectNotArray p.2 = true →
      ∃ gs, p.2 = JVal.obj gs ∧ ExplicitRelValue isUpdate gs)

mutual

theorem validateIncludeRem_ok_iff (allowed : List String) :
    ∀ rem inc, validateIncludeRem allowed rem inc = .ok () ↔
      IncludeOkRem allowed rem inc
  | 0, inc => by simp [validateIncludeRem, IncludeOkRem, depthMsg]
  | r + 1, inc => by
      rw [validateIncludeRem]
      by_cases ht : truthy inc
      · rw [if_pos ht, validateIncludeEntries_ok_iff allowed r (jsEntries inc)]
        simp [IncludeOkRem, ht]
      · simp [if_neg ht, IncludeOkRem, ht]
termination_by rem _ => (rem, 0)

theorem validateIncludeEntries_ok_iff (allowed : List String) (r : Nat) :
    ∀ es, validateIncludeEntries allowed r es = .ok () ↔
      ∀ p ∈ es, allowed.contains p.1 = true ∧
        (traversable p.2 = true → IncludeOkRem allowed r (subInclude p.2))
  | [] => by simp [validateIncludeEntries]
  | (k, v) :: rest => by
      rw [validateIncludeEntries, seq_ok_iff,
        validateIncludeEntries_ok_iff allowed r rest]
      constructor
      · rintro ⟨h1, h2⟩ p hp
        rcases List.mem_cons.1 hp with rfl | hp
        · split at h1
          next hc => exact Except.noConfusion h1
          next hc =>
            rw [not_not] at hc
            refine ⟨hc, fun htr => ?_⟩
            rw [if_pos htr] at h1
            exact (validateIncludeRem_ok_iff allowed r (subInclude v)).1 h1
        · exact h2 p hp
      · intro h
        have hk := h (k, v) (List.mem_cons_self _ _)
        refine ⟨?_, fun p hp => h p (List.mem_cons_of_mem _ hp)⟩
        rw [if_neg (by simpa using hk.1)]
        split
        next htr =>
          exact (validateIncludeRem_ok_iff allowed r (subInclude v)).2 (hk.2 htr)
        next => rfl
termination_by es => (r, es.length + 1)

end

mutual

theorem validateIncludeRem_err (allowed : List String) :
    ∀ rem inc e, validateIncludeRem allowed rem inc = .error e →
      e = depthMsg ∨ ∃ k, allowed.contains k = false ∧ e = includeMsg k
  | 0, inc, e, h => by
      rw [validateIncludeRem] at h
      cases h
      exact Or.inl rfl
  | r + 1, inc, e, h => by
      rw [validateIncludeRem] at h
      split at h
      · exact validateIncludeEntries_err allowed r (jsEntries inc) e h
      · cases h
termination_by rem _ _ _ => (rem, 0)

theorem validateIncludeEntries_err (allowed : List String) (r : Nat) :
    ∀ es e, validateIncludeEntries allowed r es = .error e →
      e = depthMsg ∨ ∃ k, allowed.contains k = false ∧ e = includeMsg k
  | [], e, h => by simp [validateIncludeEntries] at h
  | (k, v) :: rest, e, h => by
      rw [validateIncludeEntries, seq_err_iff] at h
      rcases h with h | ⟨-, h⟩
      · split at h
        next hc =>
          cases h
          exact Or.inr ⟨k, by simpa using hc, rfl⟩
        next hc =>
          split at h
          · exact validateIncludeRem_err allowed r (subInclude v) e h
          · cases h
      · exact validateIncludeEntries_err allowed r rest e h
termination_by es _ _ => (r, es.length + 1)

end

mutual

theorem validateIncludeRem_eq (allowed : List String) :
    ∀ rem inc, IncludeAllowedUpTo allowed rem inc →
      validateIncludeRem allowed rem inc =
        (if includeExceeds rem inc then .error depthMsg else .ok ())
  | 0, inc, _ => by simp [validateIncludeRem, includeExceeds]
  | r + 1, inc, h => by
      rw [validateIncludeRem]
      by_cases ht : truthy inc
      · rw [if_pos ht,
          validateIncludeEntries_eq allowed r (jsEntries inc) (h ht)]
        have hx : includeExceeds (r + 1) inc =
            (jsEntries inc).any fun p =>
              traversable p.2 && includeExceeds r (subInclude p.2) := by
          rw [includeExceeds, ht, Bool.true_and]
        rw [hx]
      · simp [if_neg ht, includeExceeds, ht]
termination_by rem _ _ => (rem, 0)

theorem validateIncludeEntries_eq (allowed : List String) (r : Nat) :
    ∀ es, (∀ p ∈ es, allowed.contains p.1 = true ∧
        (traversable p.2 = true → IncludeAllowedUpTo allowed r (subInclude p.2))) →
      validateIncludeEntries allowed r es =
        (if es.any (fun p => traversable p.2 && includeExceeds r (subInclude p.2))
          then .error depthMsg else .ok ())
  | [], _ => by simp [validateIncludeEntries]
  | (k, v) :: rest, h => by
      have hk := h (k, v) (List.mem_cons_self _ _)
      rw [validateIncludeEntries]
      rw [if_neg (by simpa using hk.1)]
      cases htr : traversable v with
      | false =>
          rw [validateIncludeEntries_eq allowed r rest
            (fun p hp => h p (List.mem_cons_of_mem _ hp))]
          simp only [if_neg (by simp [htr] : ¬ traversable v = true),
            Bind.bind, Except.bind, List.any_cons, htr, Bool.false_and,
            Bool.false_or]
          simp
      | true =>
          rw [if_pos rfl, validateIncludeRem_eq allowed r (subInclude v) (hk.2 htr)]
          cases hex : includeExceeds r (subInclude v) with
          | false =>
              rw [validateIncludeEntries_eq allowed r rest
                (fun p hp => h p (List.mem_cons_of_mem _ hp))]
              simp only [Bind.bind, Except.bind, List.any_cons, htr, hex,
                Bool.true_and, Bool.false_or]
              simp
          | true =>
              simp only [Bind.bind, Except.bind, List.any_cons, htr, hex,
                Bool.true_and, Bool.true_or, if_pos rfl]
              simp
termination_by es _ => (r, es.length + 1)

end

theorem cond_ok_iff {c : Bool} {x : Except String Unit} :
    (if c = true then x else .ok ()) = .ok () ↔ (c = true → x = .ok ()) := by
  cases c <;> simp

theorem validateQueryParams_ok_iff (cfg : QuerySecurityConfig) (p : QueryArgs) :
    validateQueryParams cfg p = .ok () ↔ GoodParams cfg p := by
  rw [validateQueryParams, GoodParams]
  simp only [seq_ok_iff, cond_ok_iff, validateFilterFields_ok_iff,
    validateSortFields, validateSelectFields, firstDisallowed_ok_iff,
    validateIncludeRelations, validateIncludeRem_ok_iff]
  cases hgt : jsGtI p.take cfg.maxLimit <;> simp

theorem cond_err {c : Bool} {x : Except String Unit} {e : String}
    (h : (if c = true then x else .ok ()) = .error e) : x = .error e := by
  cases c
  · simp at h
  · simpa using h

theorem validateQueryParams_err (cfg : QuerySecurityConfig) (p : QueryArgs)
    (e : String) (h : validateQueryParams cfg p = .error e) :
    (∃ k, cfg.allowedFilters.contains k = false ∧ k ≠ "deletedAt" ∧
      e = filterMsg k) ∨
    (∃ k, cfg.allowedSortFields.contains k = false ∧ e = sortMsg k) ∨
    e = depthMsg ∨
    (∃ k, cfg.allowedIncludeRelations.contains k = false ∧ e = includeMsg k) ∨
    (∃ k, cfg.allowedSelectFields.contains k = false ∧ e = selectMsg k) ∨
    e = limitMsg cfg.maxLimit := by
  rw [validateQueryParams] at h
  rw [seq_err_iff] at h
  rcases h with h | ⟨-, h⟩
  · exact Or.inl (validateFilterFields_err _ _ e (cond_err h))
  rw [seq_err_iff] at h
  rcases h with h | ⟨-, h⟩
  · obtain ⟨k, hk, he⟩ := firstDisallowed_err _ _ _ e (cond_err h)
    exact Or.inr (Or.inl ⟨k, hk, he⟩)
  rw [seq_err_iff] at h
  rcases h with h | ⟨-, h⟩
  · rcases validateIncludeRem_err _ _ _ e (cond_err h) with h | ⟨k, hk, he⟩
    · exact Or.inr (Or.inr (Or.inl h))
    · exact Or.inr (Or.inr (Or.inr (Or.inl ⟨k, hk, he⟩)))
  rw [seq_err_iff] at h
  rcases h with h | ⟨-, h⟩
  · obtain ⟨k, hk, he⟩ := firstDisallowed_err _ _ _ e (cond_err h)
    exact Or.inr (Or.inr (Or.inr (Or.inr (Or.inl ⟨k, hk, he⟩))))
  · refine Or.inr (Or.inr (Or.inr (Or.inr (Or.inr ?_))))
    split at h
    · cases h; rfl
    · cases h

theorem jsSetProp_lookup_self : ∀ (l : List (String × JVal)) (k : String) (v : JVal),
    (jsSetProp l k v).lookup k = some v
  | [], k, v => by simp [jsSetProp, List.lookup]
  | (k0, v0) :: rest, k, v => by
      rw [jsSetProp]
      split
      next hk => subst hk; simp [List.lookup]
      next hk =>
        have : (k == k0) = false := by
          simp [BEq.beq]
          exact fun h => hk h.symm
        simp [List.lookup, this, jsSetProp_lookup_self rest k v]

theorem jsSetProp_lookup_ne : ∀ (l : List (String × JVal)) (k k0 : String) (v : JVal),
    k ≠ k0 → (jsSetProp l k0 v).lookup k = l.lookup k
  | [], k, k0, v, hne => by
      simp [jsSetProp, List.lookup, show (k == k0) = false by simpa using hne]
  | (k1, v1) :: rest, k, k0, v, hne => by
      rw [jsSetProp]
      split
      next hk =>
        subst hk
        have hne2 : (k == k1) = false := by simpa using hne
        simp [List.lookup, hne2]
      next hk =>
        simp [List.lookup, jsSetProp_lookup_ne rest k k0 v hne]

theorem applySimpleFilter_lookup_ne (w : List (String × JVal))
    (kv : String × String) (k : String) (hne : k ≠ kv.1) :
    (applySimpleFilter w kv).lookup k = w.lookup k := by
  rw [applySimpleFilter]
  split
  · exact jsSetProp_lookup_ne _ k kv.1 _ hne
  · exact jsSetProp_lookup_ne _ k kv.1 _ hne

theorem foldl_applySimpleFilter_lookup :
    ∀ (sf : List (String × String)) (w : List (String × JVal)) (k : String),
      k ∉ sf.map Prod.fst →
      (sf.foldl applySimpleFilter w).lookup k = w.lookup k
  | [], w, k, _ => rfl
  | kv :: rest, w, k, h => by
      have h1 : k ≠ kv.1 := by
        intro hk
        exact h (by simp [hk])
      have h2 : k ∉ rest.map Prod.fst := by
        intro hk
        exact h (by simp [hk])
      rw [List.foldl_cons, foldl_applySimpleFilter_lookup rest _ k h2,
        applySimpleFilter_lookup_ne w kv k h1]

theorem processEntries_flat (mm : ModelMeta) (u : Bool) (depth r : Nat) :
    ∀ cs, (∀ p ∈ cs, FlatEntry p) → processEntries mm u depth r cs = cs
  | [], _ => by rw [processEntries]
  | (f, v) :: rest, h => by
      have hv := h (f, v) (List.mem_cons_self _ _)
      rw [processEntries]
      simp only [if_neg hv.1, hv.2, Bool.and_false, Bool.false_eq_true,
        if_false]
      rw [processEntries_flat mm u depth r rest
        (fun p hp => h p (List.mem_cons_of_mem _ hp))]

theorem processNested_flat (mm : ModelMeta) (u : Bool) (depth r : Nat)
    (cs : List (String × JVal)) (h : ∀ p ∈ cs, FlatEntry p) :
    processNested mm u depth (r + 1) (.obj cs) = .obj cs := by
  rw [processNested, jsEntries, processEntries_flat mm u depth r cs h]

theorem part_verbatim {v : JVal} {k : String} {o : Option JVal}
    (hlook : getProp v k = o) (ht : ∀ x, o = some x → truthy x = true) :
    (if truthyProp v k then [(k, getPropD v k)] else []) = opt1 k o := by
  cases o with
  | none => simp [truthyProp, getPropD, hlook, truthy, opt1]
  | some x =>
      simp [truthyProp, getPropD, hlook, ht x rfl, opt1]

theorem part_processed {mm : ModelMeta} {u : Bool} {d r : Nat} {v : JVal}
    {k : String} {o : Option JVal} (hlook : getProp v k = o)
    (ht : ∀ x, o = some x → FlatObj x) (hr : 1 ≤ r) :
    (if truthyProp v k then [(k, processNested mm u d r (getPropD v k))] else []) =
      opt1 k o := by
  cases o with
  | none => simp [truthyProp, getPropD, hlook, truthy, opt1]
  | some c =>
      obtain ⟨cs, rfl, hcs⟩ := ht c rfl
      obtain ⟨rr, rfl⟩ : ∃ rr, r = rr + 1 := ⟨r - 1, by omega⟩
      simp [truthyProp, getPropD, hlook, truthy, opt1,
        processNested_flat mm u d rr cs hcs]

theorem part_falsy {v : JVal} {k : String}
    (hlook : getProp v k = none) : truthyProp v k = false := by
  simp [truthyProp, getPropD, hlook, truthy]

theorem opt1_lookup (k k0 : String) (o : Option JVal) :
    (opt1 k0 o).lookup k = if k = k0 then o.map id else none := by
  cases o with
  | none => simp [opt1, List.lookup]
  | some x =>
      by_cases hk : k = k0
      · subst hk; simp [opt1, List.lookup]
      · have : (k == k0) = false := by simpa using hk
        simp [opt1, List.lookup, this, hk]

theorem gsOf_lookup (oc okv od odel ou : Option JVal) :
    getProp (.obj (opt1 "create" oc ++ opt1 "connect" okv ++
      opt1 "disconnect" od ++ opt1 "delete" odel ++ opt1 "update" ou)) "create" = oc ∧
    getProp (.obj (opt1 "create" oc ++ opt1 "connect" okv ++
      opt1 "disconnect" od ++ opt1 "delete" odel ++ opt1 "update" ou)) "connect" = okv ∧
    getProp (.obj (opt1 "create" oc ++ opt1 "connect" okv ++
      opt1 "disconnect" od ++ opt1 "delete" odel ++ opt1 "update" ou)) "disconnect" = od ∧
    getProp (.obj (opt1 "create" oc ++ opt1 "connect" okv ++
      opt1 "disconnect" od ++ opt1 "delete" odel ++ opt1 "update" ou)) "delete" = odel ∧
    getProp (.obj (opt1 "create" oc ++ opt1 "connect" okv ++
      opt1 "disconnect" od ++ opt1 "delete" odel ++ opt1 "update" ou)) "update" = ou := by
  refine ⟨?_, ?_, ?_, ?_, ?_⟩ <;>
    simp only [getProp, List.lookup_append, opt1_lookup] <;>
    rcases oc with _ | c <;> rcases okv with _ | kv <;> rcases od with _ | d <;>
    rcases odel with _ | dl <;> rcases ou with _ | up <;>
    simp [Option.orElse]

theorem explicit_some_truthy {w : JVal} {k : String} {o : Option JVal} {x : JVal}
    (hl : getProp w k = o) (hx : o = some x) (ht : truthy x = true) :
    truthyProp w k = true := by
  subst hx
  simp [truthyProp, getPropD, hl, ht]

theorem flatObj_truthy {x : JVal} (h : FlatObj x) : truthy x = true := by
  obtain ⟨cs, rfl, -⟩ := h
  rfl

theorem explicit_one_truthy {u : Bool} {w : JVal} {oc okv od odel ou : Option JVal}
    (l1 : getProp w "create" = oc) (l2 : getProp w "connect" = okv)
    (l3 : getProp w "disconnect" = od) (l4 : getProp w "delete" = odel)
    (l5 : getProp w "update" = ou)
    (hnz : ¬ (oc = none ∧ okv = none ∧ od = none ∧ odel = none ∧ ou = none))
    (hc : ∀ c, oc = some c → FlatObj c)
    (hk : ∀ v, okv = some v → truthy v = true)
    (hd : ∀ v, od = some v → u = true ∧ truthy v = true)
    (hdel : ∀ v, odel = some v → u = true ∧ truthy v = true)
    (hu : ∀ v, ou = some v → u = true ∧ FlatObj v) :
    truthyProp w "create" = true ∨ truthyProp w "connect" = true ∨
    truthyProp w "disconnect" = true ∨ truthyProp w "delete" = true ∨
    truthyProp w "update" = true := by
  rcases oc with _ | c
  · rcases okv with _ | kv
    · rcases od with _ | d
      · rcases odel with _ | dl
        · rcases ou with _ | up
          · exact absurd ⟨rfl, rfl, rfl, rfl, rfl⟩ hnz
          · exact Or.inr (Or.inr (Or.inr (Or.inr
              (explicit_some_truthy l5 rfl (flatObj_truthy (hu up rfl).2)))))
        · exact Or.inr (Or.inr (Or.inr (Or.inl
            (explicit_some_truthy l4 rfl (hdel dl rfl).2))))
      · exact Or.inr (Or.inr (Or.inl (explicit_some_truthy l3 rfl (hd d rfl).2)))
    · exact Or.inr (Or.inl (explicit_some_truthy l2 rfl (hk kv rfl)))
  · exact Or.inl (explicit_some_truthy l1 rfl (flatObj_truthy (hc c rfl)))

theorem processEntries_explicit (mm : ModelMeta) (u : Bool) (r : Nat)
    (hr : 1 ≤ r) :
    ∀ fs, ExplicitPayload mm u fs → processEntries mm u 0 r fs = fs
  | [], _ => by rw [processEntries]
  | (f, v) :: rest, h => by
      have hv := h (f, v) (List.mem_cons_self _ _)
      have htail := processEntries_explicit mm u r hr rest
        (fun p hp => h p (List.mem_cons_of_mem _ hp))
      rw [processEntries, htail]
      rw [if_neg hv.1]
      by_cases hrel : (isValidRelation mm f && isObjectNotArray v) = true
      · rw [if_pos hrel]
        obtain ⟨hrel1, hobj⟩ :
            isValidRelation mm f = true ∧ isObjectNotArray v = true := by
          simpa using hrel
        obtain ⟨gs, rfl, hex⟩ := hv.2 hrel1 hobj
        obtain ⟨oc, okv, od, odel, ou, hgs, hnz, hc, hk, hd, hdel, hu⟩ := hex
        subst hgs
        obtain ⟨l1, l2, l3, l4, l5⟩ := gsOf_lookup oc okv od odel ou
        generalize hw : (JVal.obj (opt1 "create" oc ++ opt1 "connect" okv ++
          opt1 "disconnect" od ++ opt1 "delete" odel ++ opt1 "update" ou) : JVal) = w
          at l1 l2 l3 l4 l5 ⊢
        have pC := @part_processed mm false (0 + 1) r _ _ _ l1 hc hr
        have pK := part_verbatim (k := "connect") l2 hk
        have pD := part_verbatim (k := "disconnect") l3 (fun x hx => (hd x hx).2)
        have pDel := part_verbatim (k := "delete") l4 (fun x hx => (hdel x hx).2)
        have pU := @part_processed mm true (0 + 1) r _ _ _ l5
          (fun x hx => (hu x hx).2) hr
        have honeT := explicit_one_truthy (u := u) l1 l2 l3 l4 l5 hnz hc hk hd hdel hu
        cases u with
        | true =>
            have himp : ¬ (¬ truthyProp w "create" = true ∧
                ¬ truthyProp w "connect" = true ∧
                ¬ truthyProp w "disconnect" = true ∧
                ¬ truthyProp w "update" = true ∧
                ¬ truthyProp w "delete" = true) := by
              rintro ⟨n1, n2, n3, n4, n5⟩
              rcases honeT with ht | ht | ht | ht | ht
              · exact n1 ht
              · exact n2 ht
              · exact n3 ht
              · exact n5 ht
              · exact n4 ht
            rw [if_pos rfl, pC, pK, pD, pDel, pU, if_neg himp, ← hw]
            simp
        | false =>
            have hod : od = none := by
              cases od with
              | none => rfl
              | some x => exact absurd (hd x rfl).1 (by simp)
            have hodel : odel = none := by
              cases odel with
              | none => rfl
              | some x => exact absurd (hdel x rfl).1 (by simp)
            have hou : ou = none := by
              cases ou with
              | none => rfl
              | some x => exact absurd (hu x rfl).1 (by simp)
            have hdisj : truthyProp w "create" = true ∨
                truthyProp w "connect" = true := by
              rcases honeT with ht | ht | ht | ht | ht
              · exact Or.inl ht
              · exact Or.inr ht
              · rw [part_falsy (by rw [l3, hod])] at ht
                exact absurd ht (by simp)
              · rw [part_falsy (by rw [l4, hodel])] at ht
                exact absurd ht (by simp)
              · rw [part_falsy (by rw [l5, hou])] at ht
                exact absurd ht (by simp)
            subst hod hodel hou
            rw [if_neg (by simp : ¬ (false = true)), if_pos hdisj, pC, pK, ← hw]
            simp [opt1]
      · rw [if_neg hrel]
        rw [if_neg (by simp : ¬ ((decide (0 > 0) && isObjectNotArray v) = true))]

theorem processNestedFields_explicit (mm : ModelMeta) (cfg : QuerySecurityConfig)
    (u : Bool) (fs : List (String × JVal)) (h : ExplicitPayload mm u fs)
    (hd : 2 ≤ cfg.maximumNestedDepth) :
    processNestedFields mm cfg u (.obj fs) = .obj fs := by
  rw [processNestedFields]
  have : (if cfg.maximumNestedDepth = 0 then 1 else cfg.maximumNestedDepth) =
      cfg.maximumNestedDepth := by
    rw [if_neg (by omega)]
  rw [this]
  obtain ⟨m, hm⟩ : ∃ m, cfg.maximumNestedDepth = m + 1 :=
    ⟨cfg.maximumNestedDepth - 1, by omega⟩
  rw [hm, processNested, jsEntries,
    processEntries_explicit mm u m (by omega) fs h]

theorem processNested_singleRel (mm : ModelMeta) (depth rr : Nat) (r : String)
    (ps : List (String × JVal)) (hrel : isValidRelation mm r = true)
    (hnc : ps.lookup "create" = none) (hnk : ps.lookup "connect" = none) :
    processNested mm false depth (rr + 1) (.obj [(r, .obj ps)]) =
      .obj [(r, .obj [("create", processNested mm false (depth + 1) rr (.obj ps))])] := by
  rw [processNested, jsEntries, processEntries, processEntries]
  rw [if_neg (by simp)]
  rw [if_pos (by simp [hrel, isObjectNotArray, isObjectType, isArrayV])]
  rw [if_neg (by simp : ¬ (false = true))]
  rw [if_neg (by simp [truthyProp, getPropD, getProp, hnc, hnk, truthy])]

theorem processNested_singleRelExplicit (mm : ModelMeta) (depth rr : Nat)
    (r : String) (ps : List (String × JVal)) (hrel : isValidRelation mm r = true) :
    processNested mm false depth (rr + 1) (.obj [(r, .obj [("create", .obj ps)])]) =
      .obj [(r, .obj [("create", processNested mm false (depth + 1) rr (.obj ps))])] := by
  rw [processNested, jsEntries, processEntries, processEntries]
  rw [if_neg (by simp)]
  rw [if_pos (by simp [hrel, isObjectNotArray, isObjectType, isArrayV])]
  rw [if_neg (by simp : ¬ (false = true))]
  rw [if_pos (by simp [truthyProp, getPropD, getProp, List.lookup, truthy] :
    truthyProp (JVal.obj [("create", JVal.obj ps)]) "create" = true ∨
    truthyProp (JVal.obj [("create", JVal.obj ps)]) "connect" = true)]
  rw [if_pos (by simp [truthyProp, getPropD, getProp, List.lookup, truthy])]
  rw [if_neg (by simp [truthyProp, getPropD, getProp, List.lookup, truthy])]
  simp [getPropD, getProp, List.lookup]

theorem runInTransactionAux_success {α : Type} (retryable : List String)
    (attempts : Nat → TxOutcome α) (maxRetries K : Nat) (a : α)
    (hK : K < maxRetries) (hsucc : attempts K = .ok a)
    (hfail : ∀ i, i < K → ∃ e, attempts i = .fail e ∧
      isRetryableErr retryable e = true) :
    ∀ j, j ≤ K → ∀ (le : Option TxErr) (waits : List Nat),
      runInTransactionAux retryable attempts maxRetries j le waits =
        (.ok a, waits ++ (List.range (K - j)).map fun i => 100 * 2 ^ (j + i))
  | j, hj, le, waits => by
      rw [runInTransactionAux.eq_def]
      rw [if_pos (by omega : j < maxRetries)]
      rcases Nat.lt_or_ge j K with hlt | hge
      · obtain ⟨e, he, hre⟩ := hfail j hlt
        simp only [he]
        rw [if_neg (by simp [hre]; omega)]
        rw [runInTransactionAux_success retryable attempts maxRetries K a hK hsucc
          hfail (j + 1) (by omega) (some e) (waits ++ [100 * 2 ^ j])]
        obtain ⟨m, hm⟩ : ∃ m, K - j = m + 1 := ⟨K - j - 1, by omega⟩
        have hm2 : K - (j + 1) = m := by omega
        rw [hm, hm2, List.range_succ_eq_map]
        have hfeq : ((fun i => 100 * 2 ^ (j + i)) ∘ Nat.succ) =
            (fun i => 100 * 2 ^ (j + 1 + i)) := by
          funext i
          have h9 : j + (i + 1) = j + 1 + i := by omega
          simp [Function.comp, h9]
        simp only [List.map_cons, List.map_map, List.append_assoc,
          List.cons_append, List.nil_append, Nat.add_zero, hfeq]
      · have hjK : j = K := by omega
        subst hjK
        simp only [hsucc]
        simp
termination_by j _ _ _ => K - j
decreasing_by omega

theorem runInTransactionAux_exhaust {α : Type} (retryable : List String)
    (attempts : Nat → TxOutcome α) (maxRetries : Nat) (es : Nat → TxErr)
    (hfail : ∀ i, i < maxRetries → attempts i = .fail (es i) ∧
      isRetryableErr retryable (es i) = true) :
    ∀ j, j < maxRetries → ∀ (le : Option TxErr) (waits : List Nat),
      runInTransactionAux retryable attempts maxRetries j le waits =
        (.error (es (maxRetries - 1)),
          waits ++ (List.range (maxRetries - 1 - j)).map fun i => 100 * 2 ^ (j + i))
  | j, hj, le, waits => by
      rw [runInTransactionAux.eq_def]
      rw [if_pos hj]
      simp only [(hfail j hj).1]
      rcases Nat.lt_or_ge j (maxRetries - 1) with hlt | hge
      · rw [if_neg (by simp [(hfail j hj).2]; omega)]
        rw [runInTransactionAux_exhaust retryable attempts maxRetries es hfail
          (j + 1) (by omega) (some (es j)) (waits ++ [100 * 2 ^ j])]
        obtain ⟨m, hm⟩ : ∃ m, maxRetries - 1 - j = m + 1 :=
          ⟨maxRetries - 1 - j - 1, by omega⟩
        have hm2 : maxRetries - 1 - (j + 1) = m := by omega
        rw [hm, hm2, List.range_succ_eq_map]
        have hfeq : ((fun i => 100 * 2 ^ (j + i)) ∘ Nat.succ) =
            (fun i => 100 * 2 ^ (j + 1 + i)) := by
          funext i
          have h9 : j + (i + 1) = j + 1 + i := by omega
          simp [Function.comp, h9]
        simp only [List.map_cons, List.map_map, List.append_assoc,
          List.cons_append, List.nil_append, Nat.add_zero, hfeq]
      · have hjm : j = maxRetries - 1 := by omega
        rw [if_pos (Or.inr hjm)]
        subst hjm
        simp
termination_by j _ _ _ => maxRetries - j
decreasing_by omega

theorem runInTransaction_nonretryable {α : Type} (retryable : List String)
    (attempts : Nat → TxOutcome α) (opts : TransactionOptions) (e : TxErr)
    (hmr : 1 ≤ opts.maxRetries) (h0 : attempts 0 = .fail e)
    (hnr : isRetryableErr retryable e = false) :
    runInTransaction retryable attempts opts = (.error e, []) := by
  rw [runInTransaction, runInTransactionAux.eq_def]
  rw [if_pos (by omega : 0 < opts.maxRetries)]
  simp only [h0]
  rw [if_pos (Or.inl (by simp [hnr]))]

/-! Claim theorems. -/

/-- C1 (amended): `_validateQueryParams` accepts exactly the plans whose
filter keys (recursively through AND/OR/NOT groups, with the key deletedAt
exempt), sort keys, inclusion keys (within the depth budget) and projection
keys are in the corresponding allow-lists and whose take is within the cap;
every rejection names a key that is outside its allow-list and is not the
exempt deletedAt, or is the depth or limit error. -/
theorem translateQueryParams_allowlists (cfg : QuerySecurityConfig)
    (p : QueryArgs) :
    (validateQueryParams cfg p = .ok () ↔ GoodParams cfg p) ∧
    ∀ e, validateQueryParams cfg p = .error e →
      (∃ k, cfg.allowedFilters.contains k = false ∧ k ≠ "deletedAt" ∧
        e = filterMsg k) ∨
      (∃ k, cfg.allowedSortFields.contains k = false ∧ e = sortMsg k) ∨
      e = depthMsg ∨
      (∃ k, cfg.allowedIncludeRelations.contains k = false ∧ e = includeMsg k) ∨
      (∃ k, cfg.allowedSelectFields.contains k = false ∧ e = selectMsg k) ∨
      e = limitMsg cfg.maxLimit :=
  ⟨validateQueryParams_ok_iff cfg p, fun e h => validateQueryParams_err cfg p e h⟩

def argsC1 : QueryArgs :=
  { skip := .int 0, take := .int 10, orderBy := .null, select := .null,
    includeV := .null, whereV := .obj [("deletedAt", .num 1)] }

/-- C1 counterexample: the translation accepts a caller-supplied filter key
(deletedAt) that is not in the (empty) filter allow-list, against the claim
that every filter key outside the allow-list is rejected. -/
theorem translateQueryParams_accepts_unlisted_deletedAt :
    parseQueryParams DEFAULT_SECURITY_CONFIG
      { filter := some (.obj [("deletedAt", JVal.num 1)]) } = .ok argsC1 ∧
    DEFAULT_SECURITY_CONFIG.allowedFilters.contains "deletedAt" = false ∧
    jsKeysOf argsC1.whereV = ["deletedAt"] :=
  ⟨rfl, rfl, rfl⟩

def cfgC1 : QuerySecurityConfig :=
  { DEFAULT_SECURITY_CONFIG with allowedFilters := ["name"] }

def argsC1good : QueryArgs :=
  { skip := .int 0, take := .int 10, orderBy := .null, select := .null,
    includeV := .null, whereV := .obj [("name", .str "a")] }

/-- Witness for C1 at a concrete policy and plan. -/
theorem translateQueryParams_allowlists_witness :
    validateQueryParams cfgC1 argsC1good = .ok () := by
  refine (translateQueryParams_allowlists cfgC1 argsC1good).1.mpr
    ⟨fun _ => ?_, fun h => absurd h (by decide), fun h => absurd h (by decide),
     fun h => absurd h (by decide), rfl⟩
  show FilterEntriesOk ["name"] [("name", JVal.str "a")]
  exact ⟨Or.inr rfl, trivial⟩

/-- C2: a query accepted by `queryRaw` only references allowed tables, and
once the checks before table validation pass, a disallowed extracted table
is rejected with the named Disallowed table error — for every whitelist, so
regardless of the column configuration. -/
theorem queryRaw_table_whitelist (wl : QueryWhitelist) (query : String) :
    (∀ s, queryRaw wl query = .ok s →
      ∀ t ∈ extractAllTables (jsTrim (strLower query)).toList,
        wl.tables.contains t = true) ∧
    (∀ t, PrelimsOk wl query →
      firstBadTable wl.tables
        (dedupKeepFirst (extractAllTables (jsTrim (strLower query)).toList)) =
          some t →
      wl.tables.contains t = false ∧
      queryRaw wl query = .error ("Disallowed table: " ++ t)) := by
  constructor
  · intro s hok t ht
    simp only [queryRaw, seqA_ok_iff] at hok
    obtain ⟨-, -, -, -, -, hvq, -⟩ := hok
    simp only [validateQuery, seq_ok_iff] at hvq
    obtain ⟨hvt, -⟩ := hvq
    rw [validateTables_eq] at hvt
    revert hvt
    cases hfb : firstBadTable wl.tables
        (dedupKeepFirst (extractAllTables (jsTrim (strLower query)).toList)) with
    | some t0 => intro hvt; simp at hvt
    | none =>
        intro _
        exact (firstBadTable_none_iff wl.tables _).mp hfb t
          ((mem_dedupKeepFirst _ t).mpr ht)
  · intro t hp hfb
    obtain ⟨h1, h2, h3, h4, ops, h5, h6⟩ := hp
    refine ⟨(firstBadTable_some wl.tables _ t hfb).2, ?_⟩
    simp only [queryRaw]
    rw [seqA_err_iff]
    refine Or.inr ⟨by simp [h1], ?_⟩
    rw [seqA_err_iff]
    refine Or.inr ⟨if_neg h2, ?_⟩
    rw [seqA_err_iff]
    refine Or.inr ⟨?_, ?_⟩
    · cases hmq : wl.maxQueryLength with
      | none => rfl
      | some m =>
          rcases h3 m hmq with h0 | hle
          · exact if_neg (by omega)
          · exact if_neg (by omega)
    rw [seqA_err_iff]
    refine Or.inr ⟨?_, ?_⟩
    · by_cases hpo : wl.parameterizedOnly = true
      · rw [if_pos hpo]; exact h4 hpo
      · rw [if_neg hpo]
    rw [seqA_err_iff]
    refine Or.inr ⟨?_, ?_⟩
    · rw [h5]
      exact if_neg (not_not_intro h6)
    rw [seqA_err_iff]
    refine Or.inl ?_
    simp only [validateQuery]
    rw [seq_err_iff]
    refine Or.inl ?_
    rw [validateTables_eq, hfb]

def wlC2 : QueryWhitelist :=
  { rawQueryEnabled := true
    tables := ["users"]
    columns := []
    allowedOperations := some ["SELECT"]
    maxQueryLength := none
    parameterizedOnly := false
    joins := .disabled
    sorting := .disabled
    maxResultRows := none }

/-- Witness for C2 at a concrete whitelist and query. -/
theorem queryRaw_table_whitelist_witness :
    wlC2.tables.contains "evil" = false ∧
    queryRaw wlC2 "select name from evil" =
      .error ("Disallowed table: " ++ "evil") :=
  (queryRaw_table_whitelist wlC2 "select name from evil").2 "evil"
    ⟨rfl, by decide, fun m hm => absurd hm (by simp [wlC2]),
     fun hpo => absurd hpo (by simp [wlC2]), ⟨["SELECT"], rfl, by rfl⟩⟩
    (by simp only [extractAllTables, scanKwIdent_eval, dedupKeepFirst_eval]
        rfl)

/-- C3: the retry loop of `runInTransaction` propagates a non-retryable
failure of the first attempt at once with no backoff wait; succeeds after K
retryable failures (K below the attempt budget) having waited exactly the
exponential backoffs 100·2^i for i < K, a strictly increasing sequence; and
raises the last error once the budget is exhausted. -/
theorem runInTransaction_retry_policy {α : Type} (retryable : List String)
    (attempts : Nat → TxOutcome α) (opts : TransactionOptions) :
    (∀ e, 1 ≤ opts.maxRetries → attempts 0 = .fail e →
      isRetryableErr retryable e = false →
      runInTransaction retryable attempts opts = (.error e, [])) ∧
    (∀ (K : Nat) (a : α), K < opts.maxRetries → attempts K = .ok a →
      (∀ i, i < K → ∃ e, attempts i = .fail e ∧
        isRetryableErr retryable e = true) →
      runInTransaction retryable attempts opts =
        (.ok a, (List.range K).map fun i => 100 * 2 ^ i) ∧
      ((List.range K).map fun i => 100 * 2 ^ i).Pairwise (fun a b => a < b)) ∧
    (∀ es : Nat → TxErr, 1 ≤ opts.maxRetries →
      (∀ i, i < opts.maxRetries → attempts i = .fail (es i) ∧
        isRetryableErr retryable (es i) = true) →
      runInTransaction retryable attempts opts =
        (.error (es (opts.maxRetries - 1)),
          (List.range (opts.maxRetries - 1)).map fun i => 100 * 2 ^ i)) := by
  refine ⟨fun e hmr h0 hnr =>
      runInTransaction_nonretryable retryable attempts opts e hmr h0 hnr,
    fun K a hK hsucc hfail => ⟨?_, ?_⟩, fun es hmr hfail => ?_⟩
  · have h := runInTransactionAux_success retryable attempts opts.maxRetries K a
      hK hsucc hfail 0 (Nat.zero_le K) none []
    rw [runInTransaction]
    simpa using h
  · refine List.Pairwise.map _ (fun a b hab => ?_) (List.pairwise_lt_range K)
    have h2 : (2 : Nat) ^ a < 2 ^ b := Nat.pow_lt_pow_right (by norm_num) hab
    exact (mul_lt_mul_left (by norm_num : (0 : Nat) < 100)).mpr h2
  · have h := runInTransactionAux_exhaust retryable attempts opts.maxRetries es
      hfail 0 (by omega) none []
    rw [runInTransaction]
    simpa using h

def errC3 : TxErr := { code := some "P2034", msg := "deadlock" }

def attC3 : Nat → TxOutcome Nat := fun i => if i < 2 then .fail errC3 else .ok 7

/-- Witness for C3: two retryable failures, then success, under the default
options. -/
theorem runInTransaction_retry_policy_witness :
    runInTransaction ["P2034"] attC3 {} = (.ok 7, [100, 200]) := by
  have h := (runInTransaction_retry_policy ["P2034"] attC3 {}).2.1 2 7
    (by decide) (by rfl) (fun i hi => ⟨errC3, by simp [attC3, hi], rfl⟩)
  rw [h.1]
  rfl

/-- C4 (amended): when every key inspected within the depth budget is in
the include allow-list, include validation errors with exactly the depth
message on trees exceeding the budget and accepts trees within it; the
depth error at an exceeding level is raised before anything at that level
is inspected (it does not depend on the value there at all). -/
theorem validateInclude_depth_first (allowed : List String) (maxDepth : Nat)
    (inc : JVal) (h : IncludeAllowedUpTo allowed maxDepth inc) :
    validateIncludeRelations allowed maxDepth inc =
      (if includeExceeds maxDepth inc then .error depthMsg else .ok ()) ∧
    ∀ v, validateIncludeRem allowed 0 v = .error depthMsg := by
  refine ⟨?_, fun v => by rw [validateIncludeRem]⟩
  rw [validateIncludeRelations]
  exact validateIncludeRem_eq allowed maxDepth inc h

def incC4bad : JVal := .obj [("bad", .obj [("include", .obj [("x", .bool true)])])]

/-- C4 counterexample: a tree deeper than the bound whose first level holds
a disallowed key is rejected with the key error, not the depth error. -/
theorem validateInclude_keyError_before_depth :
    includeExceeds 1 incC4bad = true ∧
    validateIncludeRelations [] 1 incC4bad = .error (includeMsg "bad") ∧
    includeMsg "bad" ≠ depthMsg := by
  refine ⟨rfl, ?_, by decide⟩
  simp only [validateIncludeRelations, incC4bad]
  rw [validateIncludeRem, if_pos (by decide), jsEntries, validateIncludeEntries]
  rw [if_pos (by decide)]
  rfl

def incC4 : JVal := .obj [("a", .obj [("include", .obj [("b", .bool true)])])]

/-- Witness for C4 at a concrete allow-list and tree two relation levels
deep against a budget of one. -/
theorem validateInclude_depth_first_witness :
    validateIncludeRelations ["a", "b"] 1 incC4 = .error depthMsg := by
  rw [(validateInclude_depth_first ["a", "b"] 1 incC4 (by
    intro _ p hp
    simp only [incC4, jsEntries, List.mem_singleton] at hp
    subst hp
    exact ⟨rfl, fun _ => trivial⟩)).1]
  rfl

/-- C5 (code bug): a non-numeric page string makes the parsed page NaN, not
a number at least 1 — there is no fallback on the string path of the page
parse — and the NaN skip flows into the accepted plan; the limit side
behaves as specified (clamped on the default parse path, hard error in the
direct validation). -/
theorem parseQueryParams_page_nan :
    jsMax1 (parseIntJs "abc") = JsNum.nan ∧
    jsGeI (jsMax1 (parseIntJs "abc")) 1 = false ∧
    parseQueryParams DEFAULT_SECURITY_CONFIG { page := some "abc" } =
      .ok { skip := .nan, take := .int 10, orderBy := .null, select := .null,
            includeV := .null, whereV := .null } ∧
    jsMinI (parseIntJs "999") 50 = JsNum.int 50 ∧
    validateQueryParams DEFAULT_SECURITY_CONFIG
      { skip := .int 0, take := .int 999, orderBy := .null, select := .null,
        includeV := .null, whereV := .null } = .error (limitMsg 50) :=
  ⟨rfl, rfl, rfl, rfl, rfl⟩

/-- C6 (amended): a declared relation whose object payload (implicit form)
holds only flat fields is carried in full while the remaining budget is at
least two — the relation hop consumes one level — and with a budget of
exactly one the relation is kept but its payload is silently emptied, not an
error. -/
theorem processNested_relation_budget (mm : ModelMeta) (r : String)
    (ps : List (String × JVal)) (hrel : isValidRelation mm r = true)
    (hnc : ps.lookup "create" = none) (hnk : ps.lookup "connect" = none)
    (hflat : ∀ p ∈ ps, FlatEntry p) :
    (∀ rr, 1 ≤ rr →
      processNested mm false 0 (rr + 1) (.obj [(r, .obj ps)]) =
        .obj [(r, .obj [("create", .obj ps)])]) ∧
    processNested mm false 0 1 (.obj [(r, .obj ps)]) =
      .obj [(r, .obj [("create", .obj [])])] := by
  constructor
  · intro rr hrr
    obtain ⟨m, hm⟩ : ∃ m, rr = m + 1 := ⟨rr - 1, by omega⟩
    subst hm
    rw [processNested_singleRel mm 0 (m + 1) r ps hrel hnc hnk,
      processNested_flat mm false 1 m ps hflat]
  · rw [processNested_singleRel mm 0 0 r ps hrel hnc hnk]
    rw [processNested]

def mmC6 : ModelMeta := { relationMetadataNames := ["author"], relationFieldNames := [] }

/-- C6 counterexample: a nested plain (non-relation) object inside a
relation payload consumes a level of depth budget, so its own flat field is
dropped with budget 2 even though only one relation hop occurred. -/
theorem processNested_plain_object_consumes_depth :
    processNested mmC6 false 0 2
      (.obj [("author", .obj [("profile", .obj [("bio", .str "x")])])]) =
      .obj [("author", .obj [("create", .obj [("profile", .obj [])])])] ∧
    (.obj [("author", .obj [("create", .obj [("profile", .obj [])])])] : JVal) ≠
      .obj [("author",
        .obj [("create", .obj [("profile", .obj [("bio", .str "x")])])])] := by
  constructor
  · simp [processNested, processEntries, isValidRelation, splitOnC, splitOnCAux,
      isObjectNotArray, isObjectType, isArrayV, truthyProp, getPropD, getProp,
      truthy, jsEntries, List.lookup, mmC6]
  · decide

/-- Witness for C6 at a concrete relation payload, within and at the edge of
the budget. -/
theorem processNested_relation_budget_witness :
    processNested mmC6 false 0 2 (.obj [("author", .obj [("name", .str "X")])]) =
      .obj [("author", .obj [("create", .obj [("name", .str "X")])])] ∧
    processNested mmC6 false 0 1 (.obj [("author", .obj [("name", .str "X")])]) =
      .obj [("author", .obj [("create", .obj [])])] := by
  have h := processNested_relation_budget mmC6 "author" [("name", JVal.str "X")]
    rfl rfl rfl (by
      intro p hp
      simp only [List.mem_singleton] at hp
      subst hp
      exact ⟨by decide, rfl⟩)
  exact ⟨h.1 1 (by omega), h.2⟩

/-- C7: on create, a relation payload with neither a create nor a connect
key translates identically to its explicit create form — both become the
node with a create holding the same recursive translation of the payload at
the same depth. -/
theorem processNested_implicit_explicit_create (mm : ModelMeta)
    (depth rr : Nat) (r : String) (ps : List (String × JVal))
    (hrel : isValidRelation mm r = true) (hnc : ps.lookup "create" = none)
    (hnk : ps.lookup "connect" = none) :
    processNested mm false depth (rr + 1) (.obj [(r, .obj ps)]) =
      .obj [(r, .obj [("create", processNested mm false (depth + 1) rr (.obj ps))])] ∧
    processNested mm false depth (rr + 1) (.obj [(r, .obj [("create", .obj ps)])]) =
      .obj [(r, .obj [("create", processNested mm false (depth + 1) rr (.obj ps))])] :=
  ⟨processNested_singleRel mm depth rr r ps hrel hnc hnk,
   processNested_singleRelExplicit mm depth rr r ps hrel⟩

/-- Witness for C7 at a concrete relation payload. -/
theorem processNested_implicit_explicit_create_witness :
    processNested mmC6 false 0 2 (.obj [("author", .obj [("bio", .str "B")])]) =
      processNested mmC6 false 0 2
        (.obj [("author", .obj [("create", .obj [("bio", .str "B")])])]) := by
  have h := processNested_implicit_explicit_create mmC6 0 1 "author"
    [("bio", JVal.str "B")] rfl rfl rfl
  rw [h.1, h.2]

/-- C8 (amended): translation is the identity on a payload in fully explicit
form — truthy sub-operation keys under every relation field, flat
create/update payloads — provided the nested depth budget is at least 2 (so
the recursive translation of the sub-payload is itself the identity). -/
theorem processNestedFields_explicit_noop (mm : ModelMeta)
    (cfg : QuerySecurityConfig) (u : Bool) (fs : List (String × JVal))
    (h : ExplicitPayload mm u fs) (hd : 2 ≤ cfg.maximumNestedDepth) :
    processNestedFields mm cfg u (.obj fs) = .obj fs :=
  processNestedFields_explicit mm cfg u fs h hd

/-- C8 counterexample: under the default nested depth budget (1) an already
explicit create payload is emptied, not preserved. -/
theorem processNestedFields_not_noop_default :
    processNestedFields mmC6 DEFAULT_SECURITY_CONFIG false
      (.obj [("author", .obj [("create", .obj [("name", .str "X")])])]) =
      .obj [("author", .obj [("create", .obj [])])] ∧
    (.obj [("author", .obj [("create", .obj [])])] : JVal) ≠
      .obj [("author", .obj [("create", .obj [("name", .str "X")])])] := by
  constructor
  · simp [processNestedFields, DEFAULT_SECURITY_CONFIG, processNested,
      processEntries, isValidRelation, splitOnC, splitOnCAux, isObjectNotArray,
      isObjectType, isArrayV, truthyProp, getPropD, getProp, truthy, jsEntries,
      List.lookup, mmC6]
  · decide

def cfgC8 : QuerySecurityConfig :=
  { DEFAULT_SECURITY_CONFIG with maximumNestedDepth := 2 }

/-- Witness for C8 at a concrete explicit payload and a budget of 2. -/
theorem processNestedFields_explicit_noop_witness :
    processNestedFields mmC6 cfgC8 false
      (.obj [("title", .str "T"),
             ("author", .obj [("create", .obj [("name", .str "X")])])]) =
      .obj [("title", .str "T"),
            ("author", .obj [("create", .obj [("name", .str "X")])])] := by
  refine processNestedFields_explicit_noop mmC6 cfgC8 false _ ?_ (by decide)
  intro p hp
  simp only [List.mem_cons, List.not_mem_nil, or_false] at hp
  rcases hp with rfl | rfl
  · exact ⟨by decide, fun hrel => absurd hrel (by decide)⟩
  · refine ⟨by decide, fun _ _ => ⟨[("create", .obj [("name", .str "X")])], rfl, ?_⟩⟩
    refine ⟨some (.obj [("name", .str "X")]), none, none, none, none, rfl, ?_,
      ?_, ?_, ?_, ?_, ?_⟩
    · simp
    · intro c hc
      injection hc with hc
      subst hc
      exact ⟨[("name", JVal.str "X")], rfl, by
        intro p hp
        simp only [List.mem_singleton] at hp
        subst hp
        exact ⟨by decide, rfl⟩⟩
    · intro v hv; simp at hv
    · intro v hv; simp at hv
    · intro v hv; simp at hv
    · intro v hv; simp at hv

/-- C9 (amended): with soft delete on and deleted rows not requested, and no
caller simple filter named deletedAt, the built filter tree carries the
injected deletedAt = null, and filter validation of a tree with the
injection equals validation without it for every allow-list (the injection
never causes a rejection); with deleted rows requested or soft delete off,
the deletedAt entry is exactly what the caller's JSON filter supplied. -/
theorem buildWhere_softDelete_injection (cfg : QuerySecurityConfig) (jf : JVal)
    (wd : Option String) (sf : List (String × String))
    (hsf : "deletedAt" ∉ sf.map Prod.fst) :
    (cfg.hasSoftDelete = true → truthyOptStr wd = false →
      (buildWhere cfg jf wd sf).lookup "deletedAt" = some JVal.null ∧
      ∀ allowed, validateFilterEntries allowed
          (jsSetProp (jsEntries jf) "deletedAt" JVal.null) =
        validateFilterEntries allowed (jsEntries jf)) ∧
    (cfg.hasSoftDelete = false ∨ truthyOptStr wd = true →
      (buildWhere cfg jf wd sf).lookup "deletedAt" =
        (jsEntries jf).lookup "deletedAt") := by
  constructor
  · intro hsd hwd
    constructor
    · simp only [buildWhere]
      rw [if_pos (by simp [hsd, hwd])]
      rw [foldl_applySimpleFilter_lookup sf _ "deletedAt" hsf]
      exact jsSetProp_lookup_self _ _ _
    · intro allowed
      exact validateFilterEntries_setDeletedAt allowed (jsEntries jf)
  · intro hcase
    simp only [buildWhere]
    rw [if_neg (by rcases hcase with h | h <;> simp [h])]
    exact foldl_applySimpleFilter_lookup sf _ "deletedAt" hsf

def cfgC9 : QuerySecurityConfig :=
  { DEFAULT_SECURITY_CONFIG with hasSoftDelete := true }

/-- C9 counterexample: a caller simple filter named deletedAt is merged
after the injection and overwrites the injected null, so the built tree does
not contain deletedAt = null even though soft delete is on and deleted rows
were not requested. -/
theorem buildWhere_simpleFilter_overrides_injection :
    (buildWhere cfgC9 (.obj []) none [("deletedAt", "1")]).lookup "deletedAt" =
      some (.num 1) ∧
    some (JVal.num 1) ≠ some JVal.null ∧
    cfgC9.hasSoftDelete = true ∧ truthyOptStr none = false :=
  ⟨rfl, by decide, rfl, rfl⟩

/-- Witness for C9 at a concrete soft-delete policy. -/
theorem buildWhere_softDelete_injection_witness :
    (buildWhere cfgC9 (.obj []) none [("name", "x")]).lookup "deletedAt" =
      some JVal.null ∧
    validateFilterEntries []
        (jsSetProp (jsEntries (.obj [])) "deletedAt" JVal.null) =
      validateFilterEntries [] (jsEntries (.obj [])) := by
  have h := (buildWhere_softDelete_injection cfgC9 (.obj []) none
    [("name", "x")] (by decide)).1 rfl rfl
  exact ⟨h.1, h.2 []⟩

/-- C10: filter validation never rejects the key deletedAt: the per-key
check returns ok for deletedAt whatever the value and allow-list, and every
rejection of the whole walk names a key other than deletedAt that is outside
the allow-list. -/
theorem validateFilter_deletedAt_unconditional (allowed : List String)
    (v : JVal) :
    validateFilterHead allowed "deletedAt" v = .ok () ∧
    ∀ e, validateFilterFields allowed v = .error e →
      ∃ k, k ≠ "deletedAt" ∧ allowed.contains k = false ∧ e = filterMsg k := by
  refine ⟨validateFilterHead_deletedAt allowed v, fun e h => ?_⟩
  obtain ⟨k, h1, h2, h3⟩ := validateFilterFields_err allowed v e h
  exact ⟨k, h2, h1, h3⟩

/-- Witness for C10 at a concrete value and a concrete rejection. -/
theorem validateFilter_deletedAt_unconditional_witness :
    validateFilterHead [] "deletedAt" (JVal.num 1) = .ok () ∧
    ∃ k, k ≠ "deletedAt" ∧ ([] : List String).contains k = false ∧
      filterMsg "secret" = filterMsg k :=
  ⟨(validateFilter_deletedAt_unconditional [] (JVal.num 1)).1,
   (validateFilter_deletedAt_unconditional []
     (JVal.obj [("secret", JVal.num 1)])).2 (filterMsg "secret") rfl⟩
